import Mathlib

/-
Verification of the control-flow-graph engine in
src/jittery/thirdparty/controlflow.py (class CFGraph).

Modelling conventions for the shallow embedding:
  * Nodes are natural numbers (the source treats them as opaque hashable
    values and never interprets them).
  * Python sets become `Finset ℕ`; whenever the source iterates over a set
    we iterate over `Finset.asList`, fixing one of the unspecified
    Python iteration orders.
  * The defaultdicts `_preds`/`_succs` become total functions
    `ℕ → Finset ℕ` (a missing key and an empty set are indistinguishable,
    which matches the `_DictOfContainers` equality that ignores empty
    values).  `_edge_data` becomes `ℕ → ℕ → Option (Option ℕ)`: the outer
    option is key presence, the inner option is the per-edge payload
    (which itself defaults to `None`).
  * Python lists used as stacks (append / pop from the end) are modelled
    as Lean lists whose HEAD is the Python END, so `append x` is `x :: l`,
    `extend xs` (iterating xs in order) is `xs.reverse ++ l` and `pop` is
    head/tail.
  * Explicitly raised exceptions and asserts are modelled in
    `Except CFErr`; the spec's error taxonomy is used for their names
    (ValueError on unknown edge endpoints and the `set_entry_point`
    assert ↦ UnknownNodeError, RuntimeError for a missing entry point or
    empty dominator seed ↦ ConfigurationError).  Loops are given fuel;
    running out of fuel is the distinguished error `fuelOut`, which no
    Python execution produces.  KeyError on dict/set access of internal
    tables is not modelled (the accesses are totalised); on the
    well-formed states reachable through the public API those accesses
    never fail.
-/

inductive CFErr where
  | UnknownNodeError
  | ConfigurationError
  | assertionFailed
  | typeErr
  | keyErr
  | fuelOut
  deriving DecidableEq, Repr

deriving instance DecidableEq for Except

/-- Iterating a Python set of nodes: the embedding fixes the (in Python
unspecified) iteration order to be ascending.  Defined by structural
recursion (range + filter) so that the kernel can evaluate it on
concrete graphs. -/
def Finset.asList (s : Finset ℕ) : List ℕ :=
  (List.range (s.sup id + 1)).filter (fun n => decide (n ∈ s))

/-- A control flow loop, mirroring the namedtuple
`Loop(entries, exits, header, body)`. -/
structure Loop where
  entries : Finset ℕ
  exits : Finset ℕ
  header : ℕ
  body : Finset ℕ
  deriving DecidableEq

/-- State of a `CFGraph` object: live nodes, predecessor/successor
adjacency, edge payload table, entry point, and (after processing) the
dead nodes. -/
structure CFGraph where
  nodes : Finset ℕ
  preds : ℕ → Finset ℕ
  succs : ℕ → Finset ℕ
  edge_data : ℕ → ℕ → Option (Option ℕ)
  entry_point : Option ℕ
  dead_nodes : Finset ℕ

namespace CFGraph

/-- `CFGraph.__init__`. -/
def init : CFGraph :=
  { nodes := ∅
    preds := fun _ => ∅
    succs := fun _ => ∅
    edge_data := fun _ _ => none
    entry_point := none
    dead_nodes := ∅ }

/-- `CFGraph.add_node`. -/
def add_node (g : CFGraph) (node : ℕ) : CFGraph :=
  { g with nodes := insert node g.nodes }

/-- `CFGraph._add_edge`: the internal, unchecked edge insertion. -/
def add_edge_internal (g : CFGraph) (from_ to_ : ℕ) (data : Option ℕ) : CFGraph :=
  { g with
    preds := Function.update g.preds to_ (insert from_ (g.preds to_))
    succs := Function.update g.succs from_ (insert to_ (g.succs from_))
    edge_data := fun a b => if a = from_ ∧ b = to_ then some data else g.edge_data a b }

/-- `CFGraph.add_edge`: fails (ValueError, the spec's UnknownNodeError)
if either endpoint was never added. -/
def add_edge (g : CFGraph) (src dest : ℕ) (data : Option ℕ) : Except CFErr CFGraph :=
  if src ∉ g.nodes then .error .UnknownNodeError
  else if dest ∉ g.nodes then .error .UnknownNodeError
  else .ok (add_edge_internal g src dest data)

/-- `CFGraph.set_entry_point`: the `assert node in self._nodes` failure is
the spec's UnknownNodeError. -/
def set_entry_point (g : CFGraph) (node : ℕ) : Except CFErr CFGraph :=
  if node ∈ g.nodes then .ok { g with entry_point := some node }
  else .error .UnknownNodeError

/-- `CFGraph._remove_node_edges`.  The first component removes the
outgoing edges (popping `_succs[node]` and fixing up `_preds` and
`_edge_data`), the second removes the incoming edges. -/
def remove_node_edges (g : CFGraph) (node : ℕ) : CFGraph :=
  let ss := g.succs node
  let g1 : CFGraph :=
    { g with
      succs := Function.update g.succs node ∅
      preds := fun m => if m ∈ ss then (g.preds m).erase node else g.preds m
      edge_data := fun a b => if a = node ∧ b ∈ ss then none else g.edge_data a b }
  let pp := g1.preds node
  { g1 with
    preds := Function.update g1.preds node ∅
    succs := fun m => if m ∈ pp then (g1.succs m).erase node else g1.succs m
    edge_data := fun a b => if a ∈ pp ∧ b = node then none else g1.edge_data a b }

/-- The explicit-stack loop of `CFGraph._dfs`, returning the set of
yielded (seen) nodes. -/
def dfsLoop (g : CFGraph) : List ℕ → Finset ℕ → ℕ → Except CFErr (Finset ℕ)
  | _, _, 0 => .error .fuelOut
  | [], seen, _ + 1 => .ok seen
  | node :: stack, seen, fuel + 1 =>
    if node ∈ seen then dfsLoop g stack seen fuel
    else dfsLoop g (((g.succs node).asList).reverse ++ stack) (insert node seen) fuel

/-- `CFGraph._eliminate_dead_blocks`, seeded with the entry point `e`. -/
def eliminate_dead_blocks (g : CFGraph) (e : ℕ) (fuel : ℕ) : Except CFErr CFGraph :=
  match dfsLoop g [e] ∅ fuel with
  | .error err => .error err
  | .ok live =>
    let dead := g.nodes \ live
    .ok ((dead.asList).foldl remove_node_edges
          { g with nodes := live, dead_nodes := dead })

/-- `CFGraph.process`: RuntimeError on a missing entry point is the
spec's ConfigurationError. -/
def process (g : CFGraph) (fuel : ℕ) : Except CFErr CFGraph :=
  match g.entry_point with
  | none => .error .ConfigurationError
  | some e => eliminate_dead_blocks g e fuel

/-- `CFGraph._find_exit_points`. -/
def find_exit_points (g : CFGraph) : Finset ℕ :=
  g.nodes.filter (fun n => g.succs n = ∅)

end CFGraph

/-- Reachability along successor edges, the specification-side notion the
DFS of `_dfs` computes. -/
def Reaches (g : CFGraph) (a b : ℕ) : Prop :=
  Relation.ReflTransGen (fun x y => y ∈ g.succs x) a b

/-- Well-formedness of the graph state: the adjacency tables are mutually
consistent, agree with the payload table, and all edges connect
registered nodes.  Every state reachable through `add_node` / `add_edge`
satisfies it. -/
def WF (g : CFGraph) : Prop :=
  (∀ a b, b ∈ g.succs a ↔ a ∈ g.preds b) ∧
  (∀ a b, b ∈ g.succs a ↔ (g.edge_data a b).isSome) ∧
  (∀ a b, b ∈ g.succs a → a ∈ g.nodes ∧ b ∈ g.nodes)

/-- The adjacency part of well-formedness (what `_remove_node_edges`
preserves and relies on, independent of the live-node set). -/
def WFadj (g : CFGraph) : Prop :=
  (∀ a b, b ∈ g.succs a ↔ a ∈ g.preds b) ∧
  (∀ a b, b ∈ g.succs a ↔ (g.edge_data a b).isSome)

def exIsOk {α : Type} (x : Except CFErr α) : Bool :=
  match x with
  | .ok _ => true
  | .error _ => false

def exGetD {α : Type} (x : Except CFErr α) (d : α) : α :=
  match x with
  | .ok a => a
  | .error _ => d

/-- A dominator dictionary: its key set together with its (totalised)
value function. -/
structure DomsResult where
  keys : Finset ℕ
  fn : ℕ → Finset ℕ

/-- The todo-list fixed-point loop of `CFGraph._find_dominators_internal`.
The `assert len(new_doms) < len(doms[n])` of the source is modelled by
the `assertionFailed` branch. -/
def domsLoop (predsT succsT : ℕ → Finset ℕ) (entries : Finset ℕ) :
    (ℕ → Finset ℕ) → List ℕ → ℕ → Except CFErr (ℕ → Finset ℕ)
  | _, _, 0 => .error .fuelOut
  | doms, [], _ + 1 => .ok doms
  | doms, n :: todo, fuel + 1 =>
    if n ∈ entries then domsLoop predsT succsT entries doms todo fuel
    else
      let new_doms :=
        match ((predsT n).asList).map doms with
        | [] => ({n} : Finset ℕ)
        | d :: ds => insert n (ds.foldl (· ∩ ·) d)
      if new_doms = doms n then domsLoop predsT succsT entries doms todo fuel
      else if new_doms.card < (doms n).card then
        domsLoop predsT succsT entries (Function.update doms n new_doms)
          (((succsT n).asList).reverse ++ todo) fuel
      else .error .assertionFailed

/-- `CFGraph._find_dominators_internal`, parameterised over the direction
(the caller passes the node set, seed set and the two adjacency tables).
The RuntimeError on an empty seed set is the spec's ConfigurationError. -/
def find_dominators_internal (nodes entries : Finset ℕ) (predsT succsT : ℕ → Finset ℕ)
    (fuel : ℕ) : Except CFErr DomsResult :=
  if entries = ∅ then .error .ConfigurationError
  else
    match domsLoop predsT succsT entries
        (fun k => if k ∈ entries then ({k} : Finset ℕ) else nodes)
        (((nodes.asList).filter (fun n => decide (n ∉ entries))).reverse) fuel with
    | .error err => .error err
    | .ok d => .ok ⟨entries ∪ nodes, d⟩

/-- `CFGraph._find_dominators`. -/
def find_dominators (g : CFGraph) (fuel : ℕ) : Except CFErr DomsResult :=
  find_dominators_internal g.nodes
    (match g.entry_point with
     | some e => {e}
     | none => ∅) g.preds g.succs fuel

/-- State of the explicit-stack DFS of `CFGraph._find_back_edges`:
traversal path, per-node unvisited-successor lists, fully-processed set,
and the back edges found so far. -/
structure BEState where
  stack : List ℕ
  sstate : ℕ → List ℕ
  checked : Finset ℕ
  be : Finset (ℕ × ℕ)

/-- `push_state` inside `CFGraph._find_back_edges`. -/
def pushState (g : CFGraph) (s : BEState) (node : ℕ) : BEState :=
  { s with
    stack := node :: s.stack
    sstate := Function.update s.sstate node (((g.succs node).asList).reverse) }

/-- The main loop of `CFGraph._find_back_edges`. -/
def beLoop (g : CFGraph) : BEState → ℕ → Except CFErr (Finset (ℕ × ℕ))
  | _, 0 => .error .fuelOut
  | s, fuel + 1 =>
    match s.stack with
    | [] => .ok s.be
    | tos :: rest =>
      match s.sstate tos with
      | [] => beLoop g { s with stack := rest, checked := insert tos s.checked } fuel
      | cur :: rem =>
        let s1 : BEState := { s with sstate := Function.update s.sstate tos rem }
        if cur ∈ s.stack then beLoop g { s1 with be := insert (tos, cur) s.be } fuel
        else if cur ∈ s.checked then beLoop g s1 fuel
        else beLoop g (pushState g s1 cur) fuel

/-- `CFGraph._find_back_edges` (the `entry_point()` assert fails when no
entry point is set). -/
def find_back_edges (g : CFGraph) (fuel : ℕ) : Except CFErr (Finset (ℕ × ℕ)) :=
  match g.entry_point with
  | none => .error .assertionFailed
  | some e => beLoop g (pushState g ⟨[], fun _ => [], ∅, ∅⟩ e) fuel

/-- Iterate a finite set of edges in a definable order (the embedding's
stand-in for Python's unspecified set iteration order). -/
def sortPairs (s : Finset (ℕ × ℕ)) : List (ℕ × ℕ) :=
  (s.image Prod.fst).asList.flatMap
    (fun a => ((s.filter (fun p => p.1 = a)).image Prod.snd).asList.map (fun b => (a, b)))

/-- The backward body-growing queue loop inside `CFGraph._find_loops`. -/
def loopBodyLoop (g : CFGraph) : Finset ℕ → List ℕ → ℕ → Except CFErr (Finset ℕ)
  | _, _, 0 => .error .fuelOut
  | body, [], _ + 1 => .ok body
  | body, n :: queue, fuel + 1 =>
    if n ∈ body then loopBodyLoop g body queue fuel
    else loopBodyLoop g (insert n body) (((g.preds n).asList).reverse ++ queue) fuel

/-- Building the `bodies` dict of `CFGraph._find_loops`: the header list
records dict key insertion order, bodies with a shared header merge. -/
def buildBodies (g : CFGraph) (fuel : ℕ) :
    List (ℕ × ℕ) → List ℕ → (ℕ → Option (Finset ℕ)) →
    Except CFErr (List ℕ × (ℕ → Option (Finset ℕ)))
  | [], hs, bm => .ok (hs, bm)
  | (src, dest) :: rest, hs, bm =>
    match loopBodyLoop g {dest} [src] fuel with
    | .error err => .error err
    | .ok body =>
      match bm dest with
      | some old => buildBodies g fuel rest hs (Function.update bm dest (some (old ∪ body)))
      | none => buildBodies g fuel rest (hs ++ [dest]) (Function.update bm dest (some body))

/-- The `loops` dict of `CFGraph._find_loops`: key insertion order plus
lookup function. -/
structure LoopsMap where
  headersList : List ℕ
  find : ℕ → Option Loop

/-- Construction of one `Loop` value in `CFGraph._find_loops`. -/
def mkLoop (g : CFGraph) (header : ℕ) (body : Finset ℕ) : Loop :=
  { header := header
    body := body
    entries := body.biUnion (fun n => g.preds n \ body)
    exits := body.biUnion (fun n => g.succs n \ body) }

/-- `CFGraph._find_loops`. -/
def find_loops (g : CFGraph) (fuel : ℕ) : Except CFErr LoopsMap := do
  let be ← find_back_edges g fuel
  let (hs, bm) ← buildBodies g fuel (sortPairs be) [] (fun _ => none)
  .ok ⟨hs, fun h => (bm h).map (mkLoop g h)⟩

/-- The sort key of `sorted(loops.values(), key=lambda loop: len(loop.body))`. -/
def loopSizeLe (a b : Loop) : Prop := a.body.card ≤ b.body.card

instance : DecidableRel loopSizeLe := fun _ _ => Nat.decLe _ _

instance : IsTotal Loop loopSizeLe := ⟨fun _ _ => Nat.le_total _ _⟩

instance : IsTrans Loop loopSizeLe := ⟨fun _ _ _ => Nat.le_trans⟩

/-- `CFGraph._find_in_loops`: iterate the loops sorted by ascending body
size, appending each loop's header to the entry of every body node. -/
def find_in_loops (g : CFGraph) (lm : LoopsMap) : ℕ → List ℕ :=
  let sortedLoops :=
    (lm.headersList.filterMap lm.find).insertionSort loopSizeLe
  fun n => (sortedLoops.filter (fun l => decide (n ∈ l.body))).map (fun l => l.header)

/-- `CFGraph.in_loops`: look every stored header up in the loops dict
(`none` would be the unreachable KeyError). -/
def in_loops (g : CFGraph) (lm : LoopsMap) (node : ℕ) : Option (List Loop) :=
  (find_in_loops g lm node).mapM lm.find

/-- Wiring the dummy exit node: for every loop without exits, add an edge
from each body node to the dummy. -/
def add_dummy_edges (g : CFGraph) (dummy : ℕ) (lm : LoopsMap) : CFGraph :=
  (lm.headersList.filterMap lm.find).foldl
    (fun acc l =>
      if l.exits = ∅ then
        (l.body.asList).foldl (fun a b => a.add_edge_internal b dummy none) acc
      else acc) g

/-- Result of `CFGraph._find_post_dominators`: the post-dominator table
together with the final graph state and final exit-point set (both
mutated and then restored by the source). -/
structure PostDomsResult where
  pdoms : DomsResult
  graph : CFGraph
  exits : Finset ℕ

/-- `CFGraph._find_post_dominators`, with the synthetic sink `dummy`
standing for the fresh `object()` of the source. -/
def find_post_dominators (g : CFGraph) (dummy : ℕ) (fuel : ℕ) :
    Except CFErr PostDomsResult := do
  let ep1 := insert dummy g.find_exit_points
  let lm ← find_loops g fuel
  let g2 := add_dummy_edges g dummy lm
  let pd ← find_dominators_internal g2.nodes ep1 g2.succs g2.preds fuel
  .ok { pdoms := ⟨pd.keys.erase dummy, fun k => (pd.fn k).erase dummy⟩
        graph := g2.remove_node_edges dummy
        exits := ep1.erase dummy }

/-- `CFGraph.backbone` = the post-dominator set of the entry point. -/
def backbone (g : CFGraph) (dummy : ℕ) (fuel : ℕ) : Except CFErr (Finset ℕ) := do
  let r ← find_post_dominators g dummy fuel
  match g.entry_point with
  | none => .error .keyErr
  | some e => if e ∈ r.pdoms.keys then .ok (r.pdoms.fn e) else .error .keyErr

/-- The recursive DFS `_dfs_rec` of `CFGraph._find_topo_order`, processing
a worklist of nodes in order; `acc` is the reversed postorder (so the
final `acc` is already the reversed list the source returns). -/
def topoVisit (g : CFGraph) (be : Finset (ℕ × ℕ)) :
    ℕ → List ℕ → Finset ℕ → List ℕ → Option (Finset ℕ × List ℕ)
  | 0, _, _, _ => none
  | _ + 1, [], seen, acc => some (seen, acc)
  | fuel + 1, n :: ns, seen, acc =>
    if n ∈ seen then topoVisit g be fuel ns seen acc
    else
      match topoVisit g be fuel
          (((g.succs n).asList).filter (fun d => decide ((n, d) ∉ be)))
          (insert n seen) acc with
      | none => none
      | some (seen2, acc2) => topoVisit g be fuel ns seen2 (n :: acc2)

/-- `CFGraph._find_topo_order`. -/
def find_topo_order (g : CFGraph) (fuel : ℕ) : Except CFErr (List ℕ) := do
  let be ← find_back_edges g fuel
  match g.entry_point with
  | none => .error .keyErr
  | some e =>
    match topoVisit g be fuel [e] ∅ [] with
    | none => .error .fuelOut
    | some (_, acc) => .ok acc

/-- The filtering generator of `CFGraph.topo_sort`, applied to a given
topological order. -/
def topo_sort_list (order : List ℕ) (nodes : Finset ℕ) (rev : Bool) : List ℕ :=
  (if rev then order.reverse else order).filter (fun n => decide (n ∈ nodes))

/-- `CFGraph.topo_sort`, reading the cached `_topo_order`. -/
def topo_sort (g : CFGraph) (nodes : Finset ℕ) (rev : Bool) (fuel : ℕ) :
    Except CFErr (List ℕ) :=
  (find_topo_order g fuel).map (fun it => topo_sort_list it nodes rev)

/-- Work items of the explicit stack in `CFGraph._find_postorder`: the
source pushes `(post_order.append, node)` and `(dfs_rec, dest)` closure
pairs. -/
inductive POTask where
  | emit (n : ℕ)
  | visit (n : ℕ)

/-- The stack loop of `CFGraph._find_postorder`. -/
def postorderLoop (g : CFGraph) (be : Finset (ℕ × ℕ)) :
    List POTask → Finset ℕ → List ℕ → ℕ → Except CFErr (List ℕ)
  | _, _, _, 0 => .error .fuelOut
  | [], _, acc, _ + 1 => .ok acc.reverse
  | .emit n :: rest, seen, acc, fuel + 1 => postorderLoop g be rest seen (n :: acc) fuel
  | .visit n :: rest, seen, acc, fuel + 1 =>
    if n ∈ seen then postorderLoop g be rest seen acc fuel
    else
      postorderLoop g be
        (((((g.succs n).asList).filter (fun d => decide ((n, d) ∉ be))).reverse.map
            POTask.visit) ++ .emit n :: rest)
        (insert n seen) acc fuel

/-- `CFGraph._find_postorder`. -/
def find_postorder (g : CFGraph) (be : Finset (ℕ × ℕ)) (e : ℕ) (fuel : ℕ) :
    Except CFErr (List ℕ) :=
  postorderLoop g be [.visit e] ∅ [] fuel

/-- The `intersect` helper of `CFGraph._find_immediate_dominators`
(walking two candidates towards the root by postorder index). -/
def intersect_walk (idx : ℕ → ℕ) (idom : ℕ → Option ℕ) : ℕ → ℕ → ℕ → Except CFErr ℕ
  | _, _, 0 => .error .fuelOut
  | u, v, fuel + 1 =>
    if u = v then .ok u
    else if idx u < idx v then
      match idom u with
      | none => .error .keyErr
      | some u2 => intersect_walk idx idom u2 v fuel
    else if idx v < idx u then
      match idom v with
      | none => .error .keyErr
      | some v2 => intersect_walk idx idom u v2 fuel
    else .error .fuelOut

/-- `functools.reduce(intersect, candidate predecessors)`; the empty-list
TypeError is `typeErr`. -/
def idom_reduce (idx : ℕ → ℕ) (idom : ℕ → Option ℕ) (fuel : ℕ) :
    ℕ → List ℕ → Except CFErr ℕ
  | acc, [] => .ok acc
  | acc, c :: cs =>
    match intersect_walk idx idom acc c fuel with
    | .error err => .error err
    | .ok acc2 => idom_reduce idx idom fuel acc2 cs

/-- One `for u in order` pass of `CFGraph._find_immediate_dominators`,
carrying the idom dict (function plus key insertion order) and the
changed flag. -/
def idom_pass (predsT : ℕ → Finset ℕ) (idx : ℕ → ℕ) (fuel : ℕ) :
    List ℕ → (ℕ → Option ℕ) → List ℕ → Bool →
    Except CFErr ((ℕ → Option ℕ) × List ℕ × Bool)
  | [], idom, keys, changed => .ok (idom, keys, changed)
  | u :: rest, idom, keys, changed =>
    match ((predsT u).asList).filter (fun v => (idom v).isSome) with
    | [] => .error .typeErr
    | c :: cs =>
      match idom_reduce idx idom fuel c cs with
      | .error err => .error err
      | .ok ni =>
        match idom u with
        | some old =>
          if old = ni then idom_pass predsT idx fuel rest idom keys changed
          else idom_pass predsT idx fuel rest (Function.update idom u (some ni)) keys true
        | none =>
          idom_pass predsT idx fuel rest (Function.update idom u (some ni)) (keys ++ [u]) true

/-- The `while changed` loop of `CFGraph._find_immediate_dominators`. -/
def idom_loop (predsT : ℕ → Finset ℕ) (idx : ℕ → ℕ) (order : List ℕ) :
    (ℕ → Option ℕ) → List ℕ → ℕ → Except CFErr ((ℕ → Option ℕ) × List ℕ)
  | _, _, 0 => .error .fuelOut
  | idom, keys, fuel + 1 =>
    match idom_pass predsT idx fuel order idom keys false with
    | .error err => .error err
    | .ok (idom2, keys2, changed) =>
      if changed then idom_loop predsT idx order idom2 keys2 fuel else .ok (idom2, keys2)

/-- `CFGraph._find_immediate_dominators`. -/
def find_immediate_dominators (g : CFGraph) (fuel : ℕ) :
    Except CFErr ((ℕ → Option ℕ) × List ℕ) := do
  let be ← find_back_edges g fuel
  match g.entry_point with
  | none => .error .keyErr
  | some e => do
    let order ← find_postorder g be e fuel
    let idx := fun n => order.indexOf n
    idom_loop g.preds idx order.dropLast.reverse
      (fun n => if n = e then some e else none) [e] fuel

/-- The `while v != idom[u]` chain walk of
`CFGraph._find_dominance_frontier`. -/
def df_walk (idomf : ℕ → Option ℕ) (u : ℕ) :
    ℕ → (ℕ → Finset ℕ) → ℕ → Except CFErr (ℕ → Finset ℕ)
  | _, _, 0 => .error .fuelOut
  | v, df, fuel + 1 =>
    match idomf u with
    | none => .error .keyErr
    | some iu =>
      if v = iu then .ok df
      else
        match idomf v with
        | none => .error .keyErr
        | some v2 => df_walk idomf u v2 (Function.update df v (insert u (df v))) fuel

/-- Processing one node `u` of `CFGraph._find_dominance_frontier`. -/
def df_node (predsT : ℕ → Finset ℕ) (idomf : ℕ → Option ℕ) (fuel : ℕ)
    (df : ℕ → Finset ℕ) (u : ℕ) : Except CFErr (ℕ → Finset ℕ) :=
  if (predsT u).card < 2 then .ok df
  else ((predsT u).asList).foldlM (fun acc v => df_walk idomf u v acc fuel) df

/-- `CFGraph._find_dominance_frontier`. -/
def find_dominance_frontier (g : CFGraph) (fuel : ℕ) :
    Except CFErr (List ℕ × (ℕ → Finset ℕ)) := do
  let (idomf, keys) ← find_immediate_dominators g fuel
  let df ← keys.foldlM (fun acc u => df_node g.preds idomf fuel acc u) (fun _ => ∅)
  .ok (keys, df)

/-- The processed diamond graph: entry = 0, A = 1, B = 2, C = 3 with
edges 0→1, 0→2, 1→3, 2→3. -/
def diamondG : CFGraph :=
  { nodes := {0, 1, 2, 3}
    preds := fun n => if n = 1 then {0} else if n = 2 then {0} else if n = 3 then {1, 2} else ∅
    succs := fun n => if n = 0 then {1, 2} else if n = 1 then {3} else if n = 2 then {3} else ∅
    edge_data := fun a b =>
      if (a, b) = (0, 1) ∨ (a, b) = (0, 2) ∨ (a, b) = (1, 3) ∨ (a, b) = (2, 3) then some none
      else none
    entry_point := some 0
    dead_nodes := ∅ }

/-- The processed two-node-loop graph of C4: entry = 0, A = 1, B = 2 with
edges 0→1, 1→2, 2→1. -/
def twoLoopG : CFGraph :=
  { nodes := {0, 1, 2}
    preds := fun n => if n = 1 then {0, 2} else if n = 2 then {1} else ∅
    succs := fun n => if n = 0 then {1} else if n = 1 then {2} else if n = 2 then {1} else ∅
    edge_data := fun a b =>
      if (a, b) = (0, 1) ∨ (a, b) = (1, 2) ∨ (a, b) = (2, 1) then some none else none
    entry_point := some 0
    dead_nodes := ∅ }

/-- A processed single-node graph with a self loop: node 0, edge 0→0.
Its exit-point set is empty and it is one big exit-less loop. -/
def selfLoopG : CFGraph :=
  { nodes := {0}
    preds := fun n => if n = 0 then {0} else ∅
    succs := fun n => if n = 0 then {0} else ∅
    edge_data := fun a b => if (a, b) = (0, 0) then some none else none
    entry_point := some 0
    dead_nodes := ∅ }

/-- A processed graph with two nested loops: entry = 0, edges 0→1, 1→2,
2→2 (inner loop, header 2, body 2) and 2→1 (outer loop, header 1,
body 1 2). -/
def nestedG : CFGraph :=
  { nodes := {0, 1, 2}
    preds := fun n => if n = 1 then {0, 2} else if n = 2 then {1, 2} else ∅
    succs := fun n => if n = 0 then {1} else if n = 1 then {2} else if n = 2 then {1, 2} else ∅
    edge_data := fun a b =>
      if (a, b) = (0, 1) ∨ (a, b) = (1, 2) ∨ (a, b) = (2, 1) ∨ (a, b) = (2, 2) then some none
      else none
    entry_point := some 0
    dead_nodes := ∅ }

/-- An unprocessed graph with an unreachable node: nodes 0 1 2, edges
0→1 and 2→1, entry 0.  Node 2 is dead after processing. -/
def deadG : CFGraph :=
  { nodes := {0, 1, 2}
    preds := fun n => if n = 1 then {0, 2} else ∅
    succs := fun n => if n = 0 then {1} else if n = 2 then {1} else ∅
    edge_data := fun a b => if (a, b) = (0, 1) ∨ (a, b) = (2, 1) then some none else none
    entry_point := some 0
    dead_nodes := ∅ }

def defaultLoop : Loop := ⟨∅, ∅, 0, ∅⟩

def twoLoopLM : LoopsMap := exGetD (find_loops twoLoopG 100) ⟨[], fun _ => none⟩

/-- Freshness of the synthetic sink node: `object()` in the source
creates a value distinct from every node and absent from every table. -/
def DummyFresh (g : CFGraph) (dummy : ℕ) : Prop :=
  dummy ∉ g.nodes ∧
  (∀ m, dummy ∉ g.succs m) ∧
  (∀ m, dummy ∉ g.preds m) ∧
  g.succs dummy = ∅ ∧
  g.preds dummy = ∅ ∧
  (∀ a, g.edge_data a dummy = none) ∧
  (∀ a, g.edge_data dummy a = none) ∧
  g.entry_point ≠ some dummy

def nestedLM : LoopsMap := exGetD (find_loops nestedG 200) ⟨[], fun _ => none⟩

/-- Reachability from `a` along successor edges avoiding a set of
(back) edges. -/
def NBReaches (g : CFGraph) (be : Finset (ℕ × ℕ)) (a b : ℕ) : Prop :=
  Relation.ReflTransGen (fun x y => y ∈ g.succs x ∧ (x, y) ∉ be) a b

/-- A pair (u, w) is permanently excluded from the back-edge set of the
DFS in `_find_back_edges`: u has been pushed (it is on the stack or
checked), the successor w has already been popped from u's pending list,
and (u, w) was not recorded as a back edge when it was examined. -/
def Excl (s : BEState) (p : ℕ × ℕ) : Prop :=
  (p.1 ∈ s.stack ∨ p.1 ∈ s.checked) ∧ p.2 ∉ s.sstate p.1 ∧ p ∉ s.be

/-- Reachability from `e` along edges that are permanently excluded from
the back-edge set. -/
def ExclReach (g : CFGraph) (s : BEState) (e v : ℕ) : Prop :=
  Relation.ReflTransGen (fun x y => y ∈ g.succs x ∧ Excl s (x, y)) e v

/-- Loop invariant of the back-edge DFS: every stack node and every
recorded back-edge target is reachable from the entry along permanently
excluded edges, pending successor lists are sublists of the true
successor sets without duplicates, pending pairs are never already
recorded, and back-edge sources have been pushed. -/
def BEGood (g : CFGraph) (e : ℕ) (s : BEState) : Prop :=
  (∀ v ∈ s.stack, ExclReach g s e v) ∧
  (∀ p ∈ s.be, ExclReach g s e p.2) ∧
  (∀ u w, w ∈ s.sstate u → w ∈ g.succs u) ∧
  (∀ u, (s.sstate u).Nodup) ∧
  (∀ u w, w ∈ s.sstate u → (u, w) ∉ s.be) ∧
  (∀ p ∈ s.be, p.1 ∈ s.stack ∨ p.1 ∈ s.checked)

-- Theorems.

theorem Finset.mem_asList {s : Finset ℕ} {n : ℕ} : n ∈ s.asList ↔ n ∈ s := by
  simp only [Finset.asList, List.mem_filter, List.mem_range, decide_eq_true_eq,
    and_iff_right_iff_imp]
  intro hn
  have h2 : id n ≤ s.sup id := Finset.le_sup hn
  exact Nat.lt_succ_of_le h2

theorem Finset.asList_nodup (s : Finset ℕ) : s.asList.Nodup :=
  (List.nodup_range _).filter _

/-- Claim C8: `add_edge` with an unregistered endpoint fails with
UnknownNodeError in either direction, `set_entry_point` on an
unregistered node fails with UnknownNodeError, and `add_edge` between
registered nodes inserts or replaces the single edge and its payload and
updates both adjacency directions. -/
theorem claim_C8 (g : CFGraph) (u v : ℕ) (d : Option ℕ) (hu : u ∉ g.nodes) :
    (g.add_edge u v d = .error .UnknownNodeError ∧
     g.add_edge v u d = .error .UnknownNodeError ∧
     g.set_entry_point u = .error .UnknownNodeError) ∧
    (∀ a b : ℕ, ∀ d2 : Option ℕ, a ∈ g.nodes → b ∈ g.nodes →
      g.add_edge a b d2 = .ok (g.add_edge_internal a b d2) ∧
      (g.add_edge_internal a b d2).succs a = insert b (g.succs a) ∧
      (g.add_edge_internal a b d2).preds b = insert a (g.preds b) ∧
      (g.add_edge_internal a b d2).edge_data a b = some d2 ∧
      (∀ x y, ¬(x = a ∧ y = b) →
        (g.add_edge_internal a b d2).edge_data x y = g.edge_data x y) ∧
      (g.add_edge_internal a b d2).nodes = g.nodes) := by
  constructor
  · refine ⟨?_, ?_, ?_⟩
    · simp [CFGraph.add_edge, hu]
    · by_cases hv : v ∈ g.nodes <;> simp [CFGraph.add_edge, hu, hv]
    · simp [CFGraph.set_entry_point, hu]
  · intro a b d2 ha hb
    refine ⟨by simp [CFGraph.add_edge, ha, hb], ?_, ?_, ?_, ?_, rfl⟩
    · simp [CFGraph.add_edge_internal, Function.update_same]
    · simp [CFGraph.add_edge_internal, Function.update_same]
    · simp [CFGraph.add_edge_internal]
    · intro x y hxy
      simp [CFGraph.add_edge_internal, hxy]

theorem claim_C8_witness :
    5 ∉ diamondG.nodes ∧ diamondG.add_edge 5 0 none = .error .UnknownNodeError :=
  ⟨by decide, (claim_C8 diamondG 5 0 none (by decide)).1.1⟩

/-- Claim C2: on the processed diamond graph, `dominators()[C] = {entry, C}`,
`dominance_frontier()[A] = {C}`, `dominance_frontier()[B] = {C}` and
`dominance_frontier()[entry] = ∅` (entry = 0, A = 1, B = 2, C = 3). -/
theorem claim_C2 :
    exIsOk (find_dominators diamondG 100) = true ∧
    3 ∈ (exGetD (find_dominators diamondG 100) ⟨∅, fun _ => ∅⟩).keys ∧
    (exGetD (find_dominators diamondG 100) ⟨∅, fun _ => ∅⟩).fn 3 = {0, 3} ∧
    exIsOk (find_dominance_frontier diamondG 100) = true ∧
    (exGetD (find_dominance_frontier diamondG 100) ([], fun _ => ∅)).2 1 = {3} ∧
    (exGetD (find_dominance_frontier diamondG 100) ([], fun _ => ∅)).2 2 = {3} ∧
    (exGetD (find_dominance_frontier diamondG 100) ([], fun _ => ∅)).2 0 = ∅ := by
  decide

/-- Claim C4: on the processed two-node-loop graph entry→A→B→A
(entry = 0, A = 1, B = 2), the back-edge set is exactly {(B, A)}, there
is exactly one loop, headed by A with body {A, B}, and `in_loops(B)`
lists that loop. -/
theorem claim_C4 :
    find_back_edges twoLoopG 100 = .ok {(2, 1)} ∧
    exIsOk (find_loops twoLoopG 100) = true ∧
    twoLoopLM.headersList = [1] ∧
    (twoLoopLM.find 1).isSome = true ∧
    ((twoLoopLM.find 1).getD defaultLoop).header = 1 ∧
    ((twoLoopLM.find 1).getD defaultLoop).body = {1, 2} ∧
    ((twoLoopLM.find 1).getD defaultLoop).entries = {0} ∧
    ((twoLoopLM.find 1).getD defaultLoop).exits = ∅ ∧
    (in_loops twoLoopG twoLoopLM 2).isSome = true ∧
    ((in_loops twoLoopG twoLoopLM 2).getD []).map (fun l => l.header) = [1] ∧
    (((in_loops twoLoopG twoLoopLM 2).getD []).headD defaultLoop).body = {1, 2} := by
  decide

theorem loopBodyLoop_err (g : CFGraph) :
    ∀ (fuel : ℕ) (body : Finset ℕ) (queue : List ℕ) (err : CFErr),
      loopBodyLoop g body queue fuel = .error err → err = .fuelOut := by
  intro fuel
  induction fuel with
  | zero =>
    intro body queue err h
    simp only [loopBodyLoop, Except.error.injEq] at h
    exact h.symm
  | succ n ih =>
    intro body queue err h
    match queue with
    | [] => simp [loopBodyLoop] at h
    | q :: qs =>
      simp only [loopBodyLoop] at h
      split at h
      · exact ih _ _ _ h
      · exact ih _ _ _ h

theorem beLoop_err (g : CFGraph) :
    ∀ (fuel : ℕ) (s : BEState) (err : CFErr),
      beLoop g s fuel = .error err → err = .fuelOut := by
  intro fuel
  induction fuel with
  | zero =>
    intro s err h
    simp only [beLoop, Except.error.injEq] at h
    exact h.symm
  | succ n ih =>
    intro s err h
    simp only [beLoop] at h
    split at h
    · simp at h
    · split at h
      · exact ih _ _ h
      · split at h
        · exact ih _ _ h
        · split at h
          · exact ih _ _ h
          · exact ih _ _ h

theorem domsLoop_err (predsT succsT : ℕ → Finset ℕ) (entries : Finset ℕ) :
    ∀ (fuel : ℕ) (doms : ℕ → Finset ℕ) (todo : List ℕ) (err : CFErr),
      domsLoop predsT succsT entries doms todo fuel = .error err →
      err = .fuelOut ∨ err = .assertionFailed := by
  intro fuel
  induction fuel with
  | zero =>
    intro doms todo err h
    simp only [domsLoop, Except.error.injEq] at h
    exact Or.inl h.symm
  | succ n ih =>
    intro doms todo err h
    match todo with
    | [] => simp [domsLoop] at h
    | t :: ts =>
      simp only [domsLoop] at h
      split at h
      · exact ih _ _ _ h
      · split at h
        · exact ih _ _ _ h
        · split at h
          · exact ih _ _ _ h
          · simp only [Except.error.injEq] at h
            exact Or.inr h.symm

theorem buildBodies_err (g : CFGraph) (fuel : ℕ) :
    ∀ (l : List (ℕ × ℕ)) (hs : List ℕ) (bm : ℕ → Option (Finset ℕ)) (err : CFErr),
      buildBodies g fuel l hs bm = .error err → err = .fuelOut := by
  intro l
  induction l with
  | nil =>
    intro hs bm err h
    simp [buildBodies] at h
  | cons p rest ih =>
    intro hs bm err h
    match p with
    | (src, dest) =>
      simp only [buildBodies] at h
      split at h
      next e2 hb =>
        simp only [Except.error.injEq] at h
        exact h ▸ loopBodyLoop_err g fuel _ _ e2 hb
      next body hb =>
        split at h
        · exact ih _ _ _ h
        · exact ih _ _ _ h

theorem find_back_edges_err (g : CFGraph) (fuel : ℕ) (err : CFErr)
    (h : find_back_edges g fuel = .error err) :
    err = .fuelOut ∨ err = .assertionFailed := by
  unfold find_back_edges at h
  split at h
  · simp only [Except.error.injEq] at h
    exact Or.inr h.symm
  · exact Or.inl (beLoop_err g fuel _ err h)

theorem find_loops_err (g : CFGraph) (fuel : ℕ) (err : CFErr)
    (h : find_loops g fuel = .error err) :
    err = .fuelOut ∨ err = .assertionFailed := by
  unfold find_loops at h
  rcases hbe : find_back_edges g fuel with e2 | be
  · rw [hbe] at h
    simp only [bind, Except.bind, Except.error.injEq] at h
    exact h ▸ find_back_edges_err g fuel e2 hbe
  · rw [hbe] at h
    simp only [bind, Except.bind] at h
    rcases hbb : buildBodies g fuel (sortPairs be) [] (fun _ => none) with e3 | pr
    · rw [hbb] at h
      simp only [Except.error.injEq] at h
      exact Or.inl (h ▸ buildBodies_err g fuel _ _ _ e3 hbb)
    · rw [hbb] at h
      simp at h

theorem find_dominators_internal_err (nodes entries : Finset ℕ)
    (predsT succsT : ℕ → Finset ℕ) (fuel : ℕ) (err : CFErr) (hne : entries ≠ ∅)
    (h : find_dominators_internal nodes entries predsT succsT fuel = .error err) :
    err = .fuelOut ∨ err = .assertionFailed := by
  unfold find_dominators_internal at h
  rw [if_neg hne] at h
  split at h
  next e2 hd =>
    simp only [Except.error.injEq] at h
    exact h ▸ domsLoop_err _ _ _ fuel _ _ e2 hd
  next d hd => simp at h

/-- Claim C9 counterexample: the processed single-node self-loop graph
has an empty exit-point set, yet `post_dominators()` returns normally
instead of failing with ConfigurationError. -/
theorem claim_C9_counterexample :
    selfLoopG.find_exit_points = ∅ ∧
    exIsOk (find_post_dominators selfLoopG 1 100) = true := by decide

/-- Claim C9 (amended): `post_dominators()` never fails with
ConfigurationError, even when the exit-point set is empty, because the
synthetic sink is added to the exit-point set before the backward
analysis is seeded, so the seed set is never empty. -/
theorem claim_C9_amended (g : CFGraph) (dummy : ℕ) (fuel : ℕ) :
    find_post_dominators g dummy fuel ≠ .error .ConfigurationError := by
  intro h
  unfold find_post_dominators at h
  rcases hlm : find_loops g fuel with e2 | lm
  · rw [hlm] at h
    simp only [bind, Except.bind, Except.error.injEq] at h
    rcases find_loops_err g fuel e2 hlm with h2 | h2 <;> rw [h2] at h <;> cases h
  · rw [hlm] at h
    simp only [bind, Except.bind] at h
    rcases hdi : find_dominators_internal (add_dummy_edges g dummy lm).nodes
        (insert dummy g.find_exit_points) (add_dummy_edges g dummy lm).succs
        (add_dummy_edges g dummy lm).preds fuel with e3 | pd
    · rw [hdi] at h
      simp only [Except.error.injEq] at h
      rcases find_dominators_internal_err _ _ _ _ fuel e3
          (Finset.insert_ne_empty _ _) hdi with h2 | h2 <;>
        rw [h2] at h <;> cases h
    · rw [hdi] at h
      simp at h

theorem domsLoop_self_mem (predsT succsT : ℕ → Finset ℕ) (entries : Finset ℕ)
    (P : ℕ → Prop) :
    ∀ (fuel : ℕ) (doms : ℕ → Finset ℕ) (todo : List ℕ) (d : ℕ → Finset ℕ),
      (∀ k, P k → k ∈ doms k) →
      domsLoop predsT succsT entries doms todo fuel = .ok d →
      ∀ k, P k → k ∈ d k := by
  intro fuel
  induction fuel with
  | zero =>
    intro doms todo d hinv h
    simp [domsLoop] at h
  | succ n ih =>
    intro doms todo d hinv h
    match todo with
    | [] =>
      simp only [domsLoop, Except.ok.injEq] at h
      exact h ▸ hinv
    | t :: ts =>
      simp only [domsLoop] at h
      split at h
      · exact ih _ _ _ hinv h
      · split at h
        · exact ih _ _ _ hinv h
        · split at h
          · refine ih _ _ _ ?_ h
            intro k hk
            by_cases hkt : k = t
            · subst hkt
              rw [Function.update_same]
              split <;> simp
            · rw [Function.update_noteq hkt]
              exact hinv k hk
          · simp at h

theorem find_dominators_internal_self_mem (nodes entries : Finset ℕ)
    (predsT succsT : ℕ → Finset ℕ) (fuel : ℕ) (r : DomsResult)
    (h : find_dominators_internal nodes entries predsT succsT fuel = .ok r) :
    r.keys = entries ∪ nodes ∧ ∀ k ∈ r.keys, k ∈ r.fn k := by
  unfold find_dominators_internal at h
  by_cases hne : entries = ∅
  · rw [if_pos hne] at h
    simp at h
  · rw [if_neg hne] at h
    split at h
    next e2 hd => simp at h
    next d hd =>
      simp only [Except.ok.injEq] at h
      subst h
      refine ⟨rfl, ?_⟩
      intro k hk
      refine domsLoop_self_mem _ _ _ (fun k => k ∈ entries ∪ nodes) fuel _ _ _ ?_ hd k hk
      intro k2 hk2
      by_cases h2 : k2 ∈ entries
      · simp [h2]
      · simp only [if_neg h2]
        rcases Finset.mem_union.1 hk2 with h3 | h3
        · exact absurd h3 h2
        · exact h3

theorem foldl_add_edge_nodes (dummy : ℕ) :
    ∀ (bs : List ℕ) (g : CFGraph),
      (bs.foldl (fun a b => a.add_edge_internal b dummy none) g).nodes = g.nodes := by
  intro bs
  induction bs with
  | nil => intro g; rfl
  | cons b bs ih =>
    intro g
    rw [List.foldl_cons, ih]
    rfl

theorem add_dummy_edges_nodes (g : CFGraph) (dummy : ℕ) (lm : LoopsMap) :
    (add_dummy_edges g dummy lm).nodes = g.nodes := by
  unfold add_dummy_edges
  generalize lm.headersList.filterMap lm.find = ls
  induction ls generalizing g with
  | nil => rfl
  | cons l ls ih =>
    rw [List.foldl_cons, ih]
    by_cases hex : l.exits = ∅
    · simp only [if_pos hex]
      exact foldl_add_edge_nodes dummy _ g
    · simp only [if_neg hex]

/-- Claim C5: for a processed graph, `backbone()` (the post-dominator set
of the entry point) contains the entry point, whenever the call returns.
This covers in particular single-node graphs and graphs made of exit-less
loops, for which the synthetic sink keeps the analysis seeded. -/
theorem claim_C5 (g : CFGraph) (dummy fuel e : ℕ) (s : Finset ℕ)
    (he : g.entry_point = some e) (hen : e ∈ g.nodes) (hdum : dummy ∉ g.nodes)
    (h : backbone g dummy fuel = .ok s) : e ∈ s := by
  unfold backbone at h
  rcases hpd : find_post_dominators g dummy fuel with e2 | r
  · rw [hpd] at h
    simp [bind, Except.bind] at h
  · rw [hpd] at h
    simp only [bind, Except.bind, he] at h
    split at h
    · simp only [Except.ok.injEq] at h
      subst h
      unfold find_post_dominators at hpd
      rcases hlm : find_loops g fuel with e3 | lm
      · rw [hlm] at hpd
        simp [bind, Except.bind] at hpd
      · rw [hlm] at hpd
        simp only [bind, Except.bind] at hpd
        rcases hdi : find_dominators_internal (add_dummy_edges g dummy lm).nodes
            (insert dummy g.find_exit_points) (add_dummy_edges g dummy lm).succs
            (add_dummy_edges g dummy lm).preds fuel with e4 | pd
        · rw [hdi] at hpd
          simp at hpd
        · rw [hdi] at hpd
          simp only [Except.ok.injEq] at hpd
          obtain ⟨hkeys, hmem⟩ := find_dominators_internal_self_mem _ _ _ _ fuel pd hdi
          have hed : e ≠ dummy := fun hc => hdum (hc ▸ hen)
          have hek : e ∈ pd.keys := by
            rw [hkeys]
            refine Finset.mem_union_right _ ?_
            rw [add_dummy_edges_nodes]
            exact hen
          have hfe : e ∈ pd.fn e := hmem e hek
          have : r.pdoms.fn e = (pd.fn e).erase dummy := by rw [← hpd]
          rw [this]
          exact Finset.mem_erase.2 ⟨hed, hfe⟩
    · simp at h

theorem claim_C5_witness :
    backbone selfLoopG 1 100 = .ok (exGetD (backbone selfLoopG 1 100) ∅) ∧
    0 ∈ exGetD (backbone selfLoopG 1 100) ∅ :=
  ⟨rfl, claim_C5 selfLoopG 1 100 0 _ rfl (by decide) (by decide) rfl⟩

theorem filter_reverse_eq (p : ℕ → Bool) :
    ∀ l : List ℕ, l.reverse.filter p = (l.filter p).reverse := by
  intro l
  induction l with
  | nil => rfl
  | cons a l ih =>
    rw [List.reverse_cons, List.filter_append, ih, List.filter_cons]
    by_cases hp : p a
    · simp [hp]
    · simp [hp]

/-- Claim C7: `topo_sort(S, reverse=True)` yields the global `topo_order`
filtered to the members of S and then reversed; with `reverse=False` it
yields `topo_order` filtered to S, so both are consistent with the
unfiltered global order. -/
theorem claim_C7 (g : CFGraph) (fuel : ℕ) (s : Finset ℕ) (ord : List ℕ)
    (h : find_topo_order g fuel = .ok ord) :
    topo_sort g s true fuel = .ok ((ord.filter (fun n => decide (n ∈ s))).reverse) ∧
    topo_sort g s false fuel = .ok (ord.filter (fun n => decide (n ∈ s))) := by
  unfold topo_sort
  rw [h]
  constructor
  · simp only [Except.map, topo_sort_list, if_pos]
    rw [filter_reverse_eq]
  · simp only [Except.map, topo_sort_list, if_neg]
    simp

theorem claim_C7_witness :
    find_topo_order diamondG 100 = .ok (exGetD (find_topo_order diamondG 100) []) ∧
    topo_sort diamondG {1, 3} true 100 =
      .ok (((exGetD (find_topo_order diamondG 100) []).filter
        (fun n => decide (n ∈ ({1, 3} : Finset ℕ)))).reverse) :=
  ⟨rfl, (claim_C7 diamondG 100 {1, 3} _ rfl).1⟩

theorem WF.adj {g : CFGraph} (h : WF g) : WFadj g := ⟨h.1, h.2.1⟩

theorem dfsLoop_spec (g : CFGraph) (e : ℕ) :
    ∀ (fuel : ℕ) (stack : List ℕ) (seen : Finset ℕ) (S : Finset ℕ),
      (∀ v ∈ seen, Reaches g e v) →
      (∀ v ∈ stack, Reaches g e v) →
      (∀ v ∈ seen, ∀ w ∈ g.succs v, w ∈ seen ∨ w ∈ stack) →
      CFGraph.dfsLoop g stack seen fuel = .ok S →
      (∀ v ∈ seen, v ∈ S) ∧ (∀ v ∈ stack, v ∈ S) ∧
      (∀ v ∈ S, Reaches g e v) ∧ (∀ v ∈ S, ∀ w ∈ g.succs v, w ∈ S) := by
  intro fuel
  induction fuel with
  | zero =>
    intro stack seen S hseen hstack hclosed h
    simp [CFGraph.dfsLoop] at h
  | succ n ih =>
    intro stack seen S hseen hstack hclosed h
    match stack with
    | [] =>
      simp only [CFGraph.dfsLoop, Except.ok.injEq] at h
      subst h
      refine ⟨fun v hv => hv, fun v hv => absurd hv (List.not_mem_nil v), hseen, ?_⟩
      intro v hv w hw
      rcases hclosed v hv w hw with h2 | h2
      · exact h2
      · exact absurd h2 (List.not_mem_nil w)
    | node :: stack2 =>
      simp only [CFGraph.dfsLoop] at h
      split at h
      next hmem =>
        have hcl2 : ∀ v ∈ seen, ∀ w ∈ g.succs v, w ∈ seen ∨ w ∈ stack2 := by
          intro v hv w hw
          rcases hclosed v hv w hw with h2 | h2
          · exact Or.inl h2
          · rcases List.mem_cons.1 h2 with h3 | h3
            · exact Or.inl (h3 ▸ hmem)
            · exact Or.inr h3
        obtain ⟨h1, h2, h3, h4⟩ :=
          ih stack2 seen S hseen (fun v hv => hstack v (List.mem_cons_of_mem _ hv)) hcl2 h
        refine ⟨h1, ?_, h3, h4⟩
        intro v hv
        rcases List.mem_cons.1 hv with h5 | h5
        · exact h5 ▸ h1 node hmem
        · exact h2 v h5
      next hmem =>
        have hrn : Reaches g e node := hstack node (List.mem_cons_self _ _)
        have hseen2 : ∀ v ∈ insert node seen, Reaches g e v := by
          intro v hv
          rcases Finset.mem_insert.1 hv with h2 | h2
          · exact h2 ▸ hrn
          · exact hseen v h2
        have hstack2 : ∀ v ∈ ((g.succs node).asList).reverse ++ stack2, Reaches g e v := by
          intro v hv
          rcases List.mem_append.1 hv with h2 | h2
          · exact hrn.tail (Finset.mem_asList.1 (List.mem_reverse.1 h2))
          · exact hstack v (List.mem_cons_of_mem _ h2)
        have hcl2 : ∀ v ∈ insert node seen, ∀ w ∈ g.succs v,
            w ∈ insert node seen ∨ w ∈ ((g.succs node).asList).reverse ++ stack2 := by
          intro v hv w hw
          rcases Finset.mem_insert.1 hv with h2 | h2
          · subst h2
            exact Or.inr (List.mem_append.2 (Or.inl (List.mem_reverse.2 (Finset.mem_asList.2 hw))))
          · rcases hclosed v h2 w hw with h3 | h3
            · exact Or.inl (Finset.mem_insert_of_mem h3)
            · rcases List.mem_cons.1 h3 with h4 | h4
              · exact Or.inl (h4 ▸ Finset.mem_insert_self _ _)
              · exact Or.inr (List.mem_append.2 (Or.inr h4))
        obtain ⟨h1, h2, h3, h4⟩ := ih _ _ S hseen2 hstack2 hcl2 h
        refine ⟨fun v hv => h1 v (Finset.mem_insert_of_mem hv), ?_, h3, h4⟩
        intro v hv
        rcases List.mem_cons.1 hv with h5 | h5
        · exact h5 ▸ h1 node (Finset.mem_insert_self _ _)
        · exact h2 v (List.mem_append.2 (Or.inr h5))

theorem dfs_reachable (g : CFGraph) (e : ℕ) (fuel : ℕ) (S : Finset ℕ)
    (h : CFGraph.dfsLoop g [e] ∅ fuel = .ok S) :
    ∀ v, v ∈ S ↔ Reaches g e v := by
  obtain ⟨h1, h2, h3, h4⟩ := dfsLoop_spec g e fuel [e] ∅ S (by simp)
    (by
      intro v hv
      rcases List.mem_cons.1 hv with h2 | h2
      · exact h2 ▸ Relation.ReflTransGen.refl
      · exact absurd h2 (List.not_mem_nil v))
    (by simp) h
  intro v
  constructor
  · exact h3 v
  · intro hr
    induction hr with
    | refl => exact h2 e (List.mem_cons_self _ _)
    | tail hab hbc ihv => exact h4 _ ihv _ hbc

theorem remove_node_edges_frame (g : CFGraph) (d : ℕ) :
    (g.remove_node_edges d).nodes = g.nodes ∧
    (g.remove_node_edges d).dead_nodes = g.dead_nodes ∧
    (g.remove_node_edges d).entry_point = g.entry_point :=
  ⟨rfl, rfl, rfl⟩

theorem remove_node_edges_succs (g : CFGraph) (d : ℕ) (hwf : WFadj g) (m : ℕ) :
    (g.remove_node_edges d).succs m = if m = d then ∅ else (g.succs m).erase d := by
  obtain ⟨wf1, wf2⟩ := hwf
  by_cases hm : m = d
  · subst hm
    rw [if_pos rfl]
    dsimp only [CFGraph.remove_node_edges]
    simp [Function.update_same]
  · rw [if_neg hm]
    dsimp only [CFGraph.remove_node_edges]
    rw [Function.update_noteq hm]
    by_cases hpp : m ∈ (if d ∈ g.succs d then (g.preds d).erase d else g.preds d)
    · rw [if_pos hpp]
    · rw [if_neg hpp]
      have hdn : d ∉ g.succs m := by
        intro hd
        have hmp : m ∈ g.preds d := (wf1 m d).1 hd
        by_cases hdd : d ∈ g.succs d
        · exact hpp (by rw [if_pos hdd]; exact Finset.mem_erase.2 ⟨hm, hmp⟩)
        · exact hpp (by rw [if_neg hdd]; exact hmp)
      rw [Finset.erase_eq_of_not_mem hdn]

theorem remove_node_edges_preds (g : CFGraph) (d : ℕ) (hwf : WFadj g) (m : ℕ) :
    (g.remove_node_edges d).preds m = if m = d then ∅ else (g.preds m).erase d := by
  obtain ⟨wf1, wf2⟩ := hwf
  by_cases hm : m = d
  · subst hm
    rw [if_pos rfl]
    dsimp only [CFGraph.remove_node_edges]
    simp [Function.update_same]
  · rw [if_neg hm]
    dsimp only [CFGraph.remove_node_edges]
    rw [Function.update_noteq hm]
    by_cases hss : m ∈ g.succs d
    · rw [if_pos hss]
    · rw [if_neg hss]
      have hdn : d ∉ g.preds m := fun hd => hss ((wf1 d m).2 hd)
      rw [Finset.erase_eq_of_not_mem hdn]

theorem remove_node_edges_edge_data (g : CFGraph) (d : ℕ) (hwf : WFadj g) (a b : ℕ) :
    (g.remove_node_edges d).edge_data a b =
      if a = d ∨ b = d then none else g.edge_data a b := by
  obtain ⟨wf1, wf2⟩ := hwf
  have edf : ∀ a2 b2, b2 ∉ g.succs a2 → g.edge_data a2 b2 = none := by
    intro a2 b2 h
    cases hed : g.edge_data a2 b2 with
    | none => rfl
    | some v => exact absurd ((wf2 a2 b2).2 (by rw [hed]; rfl)) h
  dsimp only [CFGraph.remove_node_edges]
  by_cases hb : b = d
  · rw [if_pos (Or.inr hb)]
    by_cases hap : a ∈ (if d ∈ g.succs d then (g.preds d).erase d else g.preds d)
    · rw [if_pos ⟨hap, hb⟩]
    · rw [if_neg (fun hc => hap hc.1)]
      by_cases ha2 : a = d ∧ b ∈ g.succs d
      · rw [if_pos ha2]
      · rw [if_neg ha2]
        apply edf
        intro hmem
        have hap2 : a ∈ g.preds d := (wf1 a d).1 (hb ▸ hmem)
        by_cases hdd : d ∈ g.succs d
        · by_cases had : a = d
          · exact ha2 ⟨had, hb ▸ hdd⟩
          · exact hap (by rw [if_pos hdd]; exact Finset.mem_erase.2 ⟨had, hap2⟩)
        · exact hap (by rw [if_neg hdd]; exact hap2)
  · rw [if_neg (fun hc => hb hc.2)]
    by_cases ha : a = d
    · rw [if_pos (Or.inl ha)]
      by_cases hbs : b ∈ g.succs d
      · rw [if_pos ⟨ha, hbs⟩]
      · rw [if_neg (fun hc => hbs hc.2)]
        rw [ha]
        exact edf _ _ hbs
    · rw [if_neg (fun hc => ha hc.1), if_neg (fun hc => hc.elim ha hb)]

theorem remove_node_edges_wfadj (g : CFGraph) (d : ℕ) (hwf : WFadj g) :
    WFadj (g.remove_node_edges d) := by
  obtain ⟨wf1, wf2⟩ := hwf
  constructor
  · intro a b
    rw [remove_node_edges_succs g d ⟨wf1, wf2⟩ a, remove_node_edges_preds g d ⟨wf1, wf2⟩ b]
    by_cases ha : a = d <;> by_cases hb : b = d <;>
      simp [ha, hb, Finset.mem_erase, wf1 a b]
  · intro a b
    rw [remove_node_edges_succs g d ⟨wf1, wf2⟩ a, remove_node_edges_edge_data g d ⟨wf1, wf2⟩ a b]
    by_cases ha : a = d <;> by_cases hb : b = d <;>
      simp [ha, hb, Finset.mem_erase, wf2 a b]

theorem erase_sdiff_insert (s t : Finset ℕ) (x : ℕ) :
    (s.erase x) \ t = s \ insert x t := by
  ext y
  simp only [Finset.mem_sdiff, Finset.mem_erase, Finset.mem_insert]
  tauto

theorem foldl_remove_spec :
    ∀ (L : List ℕ) (g : CFGraph), WFadj g →
      WFadj (L.foldl CFGraph.remove_node_edges g) ∧
      (L.foldl CFGraph.remove_node_edges g).nodes = g.nodes ∧
      (L.foldl CFGraph.remove_node_edges g).dead_nodes = g.dead_nodes ∧
      (L.foldl CFGraph.remove_node_edges g).entry_point = g.entry_point ∧
      (∀ m, (L.foldl CFGraph.remove_node_edges g).succs m =
        if m ∈ L then ∅ else g.succs m \ L.toFinset) ∧
      (∀ m, (L.foldl CFGraph.remove_node_edges g).preds m =
        if m ∈ L then ∅ else g.preds m \ L.toFinset) ∧
      (∀ a b, (L.foldl CFGraph.remove_node_edges g).edge_data a b =
        if a ∈ L ∨ b ∈ L then none else g.edge_data a b) := by
  intro L
  induction L with
  | nil =>
    intro g hwf
    refine ⟨hwf, rfl, rfl, rfl, ?_, ?_, ?_⟩
    · intro m; simp
    · intro m; simp
    · intro a b; simp
  | cons x xs ih =>
    intro g hwf
    have hwf2 : WFadj (g.remove_node_edges x) := remove_node_edges_wfadj g x hwf
    obtain ⟨ihwf, ihn, ihd, ihe, ihs, ihp, ihed⟩ := ih (g.remove_node_edges x) hwf2
    rw [List.foldl_cons] at *
    refine ⟨ihwf, by rw [ihn]; rfl, by rw [ihd]; rfl, by rw [ihe]; rfl, ?_, ?_, ?_⟩
    · intro m
      rw [ihs m, remove_node_edges_succs g x hwf m]
      by_cases hm1 : m ∈ xs
      · rw [if_pos hm1, if_pos (List.mem_cons_of_mem _ hm1)]
      · rw [if_neg hm1]
        by_cases hm2 : m = x
        · rw [if_pos (List.mem_cons.2 (Or.inl hm2)), if_pos hm2]
          exact Finset.empty_sdiff _
        · rw [if_neg hm2, if_neg (fun hc => (List.mem_cons.1 hc).elim hm2 hm1)]
          rw [erase_sdiff_insert]
          congr 1
          simp
    · intro m
      rw [ihp m, remove_node_edges_preds g x hwf m]
      by_cases hm1 : m ∈ xs
      · rw [if_pos hm1, if_pos (List.mem_cons_of_mem _ hm1)]
      · rw [if_neg hm1]
        by_cases hm2 : m = x
        · rw [if_pos (List.mem_cons.2 (Or.inl hm2)), if_pos hm2]
          exact Finset.empty_sdiff _
        · rw [if_neg hm2, if_neg (fun hc => (List.mem_cons.1 hc).elim hm2 hm1)]
          rw [erase_sdiff_insert]
          congr 1
          simp
    · intro a b
      rw [ihed a b, remove_node_edges_edge_data g x hwf a b]
      by_cases h1 : a ∈ xs ∨ b ∈ xs
      · rw [if_pos h1]
        rcases h1 with h1 | h1
        · rw [if_pos (Or.inl (List.mem_cons_of_mem _ h1))]
        · rw [if_pos (Or.inr (List.mem_cons_of_mem _ h1))]
      · rw [if_neg h1]
        by_cases h2 : a = x ∨ b = x
        · rw [if_pos h2]
          rcases h2 with h2 | h2
          · rw [if_pos (Or.inl (List.mem_cons.2 (Or.inl h2)))]
          · rw [if_pos (Or.inr (List.mem_cons.2 (Or.inl h2)))]
        · rw [if_neg h2]
          rw [if_neg]
          intro hc
          rcases hc with hc | hc <;> rcases List.mem_cons.1 hc with h3 | h3
          · exact h2 (Or.inl h3)
          · exact h1 (Or.inl h3)
          · exact h2 (Or.inr h3)
          · exact h1 (Or.inr h3)

theorem reaches_mem_nodes (g : CFGraph) (e v : ℕ)
    (hwf3 : ∀ a b, b ∈ g.succs a → a ∈ g.nodes ∧ b ∈ g.nodes) (hen : e ∈ g.nodes)
    (h : Reaches g e v) : v ∈ g.nodes := by
  induction h with
  | refl => exact hen
  | tail hab hbc ih => exact (hwf3 _ _ hbc).2

/-- Claim C1: after `process()` on a well-formed graph with entry point
`e`, the live nodes are exactly the nodes reachable from `e` along
successor edges, the dead and live sets are disjoint and together cover
the originally added nodes, and every edge incident to a dead node (in
either direction) is purged from both adjacency tables and from the
edge-payload table. -/
theorem claim_C1 (g g2 : CFGraph) (e fuel : ℕ) (hwf : WF g)
    (he : g.entry_point = some e) (hen : e ∈ g.nodes)
    (hp : g.process fuel = .ok g2) :
    (∀ n, n ∈ g2.nodes ↔ Reaches g e n) ∧
    Disjoint g2.dead_nodes g2.nodes ∧
    g2.dead_nodes ∪ g2.nodes = g.nodes ∧
    (∀ d ∈ g2.dead_nodes,
      g2.succs d = ∅ ∧ g2.preds d = ∅ ∧
      (∀ m, d ∉ g2.succs m ∧ d ∉ g2.preds m) ∧
      (∀ x, g2.edge_data d x = none ∧ g2.edge_data x d = none)) := by
  simp only [CFGraph.process, he] at hp
  rcases hdfs : CFGraph.dfsLoop g [e] ∅ fuel with e2 | live
  · simp only [CFGraph.eliminate_dead_blocks, hdfs] at hp
    exact absurd hp (by simp)
  · simp only [CFGraph.eliminate_dead_blocks, hdfs, Except.ok.injEq] at hp
    subst hp
    have hreach : ∀ v, v ∈ live ↔ Reaches g e v := dfs_reachable g e fuel live hdfs
    have hlive_sub : live ⊆ g.nodes := by
      intro v hv
      exact reaches_mem_nodes g e v hwf.2.2 hen ((hreach v).1 hv)
    have hwf1 : WFadj ({ g with nodes := live, dead_nodes := g.nodes \ live } : CFGraph) :=
      hwf.adj
    obtain ⟨fwf, fn, fd, fe, fs, fp, fed⟩ :=
      foldl_remove_spec ((g.nodes \ live).asList)
        { g with nodes := live, dead_nodes := g.nodes \ live } hwf1
    refine ⟨?_, ?_, ?_, ?_⟩
    · intro n
      rw [fn]
      exact hreach n
    · rw [fn, fd]
      exact Finset.sdiff_disjoint
    · rw [fn, fd]
      exact Finset.sdiff_union_of_subset hlive_sub
    · intro d hd
      rw [fd] at hd
      have hdL : d ∈ (g.nodes \ live).asList := Finset.mem_asList.2 hd
      have hdF : d ∈ ((g.nodes \ live).asList).toFinset := List.mem_toFinset.2 hdL
      refine ⟨?_, ?_, ?_, ?_⟩
      · rw [fs d, if_pos hdL]
      · rw [fp d, if_pos hdL]
      · intro m
        constructor
        · rw [fs m]
          by_cases hm : m ∈ (g.nodes \ live).asList
          · rw [if_pos hm]; exact Finset.not_mem_empty d
          · rw [if_neg hm]
            intro hc
            exact (Finset.mem_sdiff.1 hc).2 hdF
        · rw [fp m]
          by_cases hm : m ∈ (g.nodes \ live).asList
          · rw [if_pos hm]; exact Finset.not_mem_empty d
          · rw [if_neg hm]
            intro hc
            exact (Finset.mem_sdiff.1 hc).2 hdF
      · intro x
        constructor
        · rw [fed d x, if_pos (Or.inl hdL)]
        · rw [fed x d, if_pos (Or.inr hdL)]

theorem claim_C1_witness :
    WF deadG ∧ deadG.process 100 = .ok (exGetD (deadG.process 100) CFGraph.init) ∧
    0 ∈ (exGetD (deadG.process 100) CFGraph.init).nodes := by
  have hwf : WF deadG := by
    refine ⟨?_, ?_, ?_⟩
    · intro a b
      by_cases h0 : a = 0 <;> by_cases h2 : a = 2 <;> by_cases hb : b = 1 <;>
        simp [deadG, h0, h2, hb]
    · intro a b
      by_cases h0 : a = 0 <;> by_cases h2 : a = 2 <;> by_cases hb : b = 1 <;>
        simp [deadG, h0, h2, hb]
    · intro a b
      by_cases h0 : a = 0 <;> by_cases h2 : a = 2 <;> by_cases hb : b = 1 <;>
        simp [deadG, h0, h2, hb]
  refine ⟨hwf, rfl, ?_⟩
  exact ((claim_C1 deadG _ 0 100 hwf rfl (by decide) rfl).1 0).2 Relation.ReflTransGen.refl

theorem mem_sortPairs {s : Finset (ℕ × ℕ)} {p : ℕ × ℕ} (h : p ∈ sortPairs s) : p ∈ s := by
  unfold sortPairs at h
  rcases List.mem_flatMap.1 h with ⟨a, ha, hp⟩
  rcases List.mem_map.1 hp with ⟨b, hb, rfl⟩
  rcases Finset.mem_image.1 (Finset.mem_asList.1 hb) with ⟨q, hq, rfl⟩
  rcases Finset.mem_filter.1 hq with ⟨hqs, hq1⟩
  have hqe : q = (a, q.2) := by
    rw [← hq1]
  exact hqe ▸ hqs

theorem beLoop_pairs (g : CFGraph) (P : ℕ → Prop) (hP : ∀ a b, b ∈ g.succs a → P b) :
    ∀ (fuel : ℕ) (s : BEState) (be : Finset (ℕ × ℕ)),
      (∀ x ∈ s.stack, P x) →
      (∀ u w, w ∈ s.sstate u → w ∈ g.succs u) →
      (∀ p ∈ s.be, P p.1 ∧ P p.2) →
      beLoop g s fuel = .ok be →
      ∀ p ∈ be, P p.1 ∧ P p.2 := by
  intro fuel
  induction fuel with
  | zero =>
    intro s be hstack hss hbe h
    simp [beLoop] at h
  | succ n ih =>
    intro s be hstack hss hbe h
    simp only [beLoop] at h
    split at h
    next hnil =>
      simp only [Except.ok.injEq] at h
      exact h ▸ hbe
    next tos rest hcons =>
      split at h
      next hemp =>
        refine ih _ _ ?_ ?_ ?_ h
        · intro x hx
          exact hstack x (hcons ▸ List.mem_cons_of_mem _ hx)
        · exact hss
        · exact hbe
      next cur rem hget =>
        have hsub : ∀ u w, w ∈ Function.update s.sstate tos rem u → w ∈ g.succs u := by
          intro u w hw
          by_cases hu : u = tos
          · subst hu
            rw [Function.update_same] at hw
            exact hss u w (hget ▸ List.mem_cons_of_mem _ hw)
          · rw [Function.update_noteq hu] at hw
            exact hss u w hw
        have hcur : P cur := hP tos cur (hss tos cur (hget ▸ List.mem_cons_self _ _))
        split at h
        · refine ih _ _ ?_ ?_ ?_ h
          · exact hstack
          · exact hsub
          · intro p hp
            rcases Finset.mem_insert.1 hp with h2 | h2
            · subst h2
              exact ⟨hstack tos (hcons ▸ List.mem_cons_self _ _), hcur⟩
            · exact hbe p h2
        · split at h
          · refine ih _ _ ?_ ?_ ?_ h
            · exact hstack
            · exact hsub
            · exact hbe
          · refine ih _ _ ?_ ?_ ?_ h
            · intro x hx
              have hx2 : x = cur ∨ x ∈ s.stack := by
                simpa [pushState] using hx
              rcases hx2 with h2 | h2
              · exact h2 ▸ hcur
              · exact hstack x h2
            · intro u w hw
              by_cases hu : u = cur
              · subst hu
                have hw2 : w ∈ ((g.succs u).asList).reverse := by
                  simpa [pushState, Function.update_same] using hw
                exact Finset.mem_asList.1 (List.mem_reverse.1 hw2)
              · have hw2 : w ∈ Function.update s.sstate tos rem u := by
                  simpa [pushState, Function.update_noteq hu] using hw
                exact hsub u w hw2
            · exact hbe

theorem find_back_edges_pairs (g : CFGraph) (P : ℕ → Prop)
    (hP : ∀ a b, b ∈ g.succs a → P b) (fuel : ℕ) (be : Finset (ℕ × ℕ)) (e : ℕ)
    (he : g.entry_point = some e) (hPe : P e)
    (h : find_back_edges g fuel = .ok be) : ∀ p ∈ be, P p.1 ∧ P p.2 := by
  unfold find_back_edges at h
  rw [he] at h
  refine beLoop_pairs g P hP fuel _ be ?_ ?_ ?_ h
  · intro x hx
    dsimp only [pushState] at hx
    rcases List.mem_cons.1 hx with h2 | h2
    · exact h2 ▸ hPe
    · exact absurd h2 (List.not_mem_nil x)
  · intro u w hw
    dsimp only [pushState] at hw
    by_cases hu : u = e
    · subst hu
      rw [Function.update_same] at hw
      exact Finset.mem_asList.1 (List.mem_reverse.1 hw)
    · rw [Function.update_noteq hu] at hw
      exact absurd hw (List.not_mem_nil w)
  · intro p hp
    exact absurd hp (Finset.not_mem_empty p)

theorem loopBodyLoop_mem (g : CFGraph) (P : ℕ → Prop)
    (hPpred : ∀ a b, a ∈ g.preds b → P a) :
    ∀ (fuel : ℕ) (body : Finset ℕ) (queue : List ℕ) (out : Finset ℕ),
      (∀ x ∈ body, P x) → (∀ x ∈ queue, P x) →
      loopBodyLoop g body queue fuel = .ok out → ∀ x ∈ out, P x := by
  intro fuel
  induction fuel with
  | zero =>
    intro body queue out hbody hqueue h
    simp [loopBodyLoop] at h
  | succ n ih =>
    intro body queue out hbody hqueue h
    match queue with
    | [] =>
      simp only [loopBodyLoop, Except.ok.injEq] at h
      exact h ▸ hbody
    | q :: qs =>
      simp only [loopBodyLoop] at h
      have hq : P q := hqueue q (List.mem_cons_self _ _)
      have hqs : ∀ x ∈ qs, P x := fun x hx => hqueue x (List.mem_cons_of_mem _ hx)
      split at h
      · exact ih _ _ _ hbody hqs h
      · refine ih _ _ _ ?_ ?_ h
        · intro x hx
          rcases Finset.mem_insert.1 hx with h2 | h2
          · exact h2 ▸ hq
          · exact hbody x h2
        · intro x hx
          rcases List.mem_append.1 hx with h2 | h2
          · exact hPpred x q (Finset.mem_asList.1 (List.mem_reverse.1 h2))
          · exact hqs x h2

theorem buildBodies_bodies (g : CFGraph) (P : ℕ → Prop)
    (hPpred : ∀ a b, a ∈ g.preds b → P a) (fuel : ℕ) :
    ∀ (L : List (ℕ × ℕ)) (hs : List ℕ) (bm : ℕ → Option (Finset ℕ))
      (hs2 : List ℕ) (bm2 : ℕ → Option (Finset ℕ)),
      (∀ p ∈ L, P p.1 ∧ P p.2) →
      (∀ hd b, bm hd = some b → ∀ x ∈ b, P x) →
      buildBodies g fuel L hs bm = .ok (hs2, bm2) →
      ∀ hd b, bm2 hd = some b → ∀ x ∈ b, P x := by
  intro L
  induction L with
  | nil =>
    intro hs bm hs2 bm2 hL hbm h
    simp only [buildBodies, Except.ok.injEq, Prod.mk.injEq] at h
    exact h.2 ▸ hbm
  | cons p rest ih =>
    intro hs bm hs2 bm2 hL hbm h
    match p with
    | (src, dest) =>
      have hsrc : P src := (hL (src, dest) (List.mem_cons_self _ _)).1
      have hdest : P dest := (hL (src, dest) (List.mem_cons_self _ _)).2
      have hrest : ∀ p ∈ rest, P p.1 ∧ P p.2 := fun p hp => hL p (List.mem_cons_of_mem _ hp)
      simp only [buildBodies] at h
      split at h
      next e2 hbody => exact absurd h (by simp)
      next body hbody =>
        have hbodyP : ∀ x ∈ body, P x := by
          refine loopBodyLoop_mem g P hPpred fuel _ _ _ ?_ ?_ hbody
          · intro x hx
            rcases Finset.mem_singleton.1 hx with h2
            exact h2 ▸ hdest
          · intro x hx
            rcases List.mem_cons.1 hx with h2 | h2
            · exact h2 ▸ hsrc
            · exact absurd h2 (List.not_mem_nil x)
        split at h
        next old hold =>
          refine ih _ _ _ _ hrest ?_ h
          intro hd b hb
          by_cases hhd : hd = dest
          · subst hhd
            rw [Function.update_same] at hb
            simp only [Option.some.injEq] at hb
            intro x hx
            rcases Finset.mem_union.1 (hb ▸ hx) with h2 | h2
            · exact hbm hd old hold x h2
            · exact hbodyP x h2
          · rw [Function.update_noteq hhd] at hb
            exact hbm hd b hb
        next hnone =>
          refine ih _ _ _ _ hrest ?_ h
          intro hd b hb
          by_cases hhd : hd = dest
          · subst hhd
            rw [Function.update_same] at hb
            simp only [Option.some.injEq] at hb
            exact hb ▸ hbodyP
          · rw [Function.update_noteq hhd] at hb
            exact hbm hd b hb

theorem find_loops_bodies (g : CFGraph) (P : ℕ → Prop)
    (hPsucc : ∀ a b, b ∈ g.succs a → P b)
    (hPpred : ∀ a b, a ∈ g.preds b → P a)
    (hPe : ∀ e, g.entry_point = some e → P e)
    (fuel : ℕ) (lm : LoopsMap) (h : find_loops g fuel = .ok lm) :
    ∀ hd l, lm.find hd = some l → ∀ x ∈ l.body, P x := by
  unfold find_loops at h
  rcases hbe : find_back_edges g fuel with e2 | be
  · rw [hbe] at h
    simp [bind, Except.bind] at h
  · rw [hbe] at h
    simp only [bind, Except.bind] at h
    rcases hbb : buildBodies g fuel (sortPairs be) [] (fun _ => none) with e3 | pr
    · rw [hbb] at h
      simp at h
    · rw [hbb] at h
      simp only [Except.ok.injEq] at h
      have hentry : ∃ e, g.entry_point = some e := by
        unfold find_back_edges at hbe
        rcases hee : g.entry_point with _ | e
        · rw [hee] at hbe
          simp at hbe
        · exact ⟨e, rfl⟩
      obtain ⟨e, hee⟩ := hentry
      have hpairs : ∀ p ∈ be, P p.1 ∧ P p.2 :=
        find_back_edges_pairs g P hPsucc fuel be e hee (hPe e hee) hbe
      obtain ⟨hs2, bm2⟩ := pr
      have hbodies : ∀ hd b, bm2 hd = some b → ∀ x ∈ b, P x := by
        refine buildBodies_bodies g P hPpred fuel _ _ _ _ _ ?_ ?_ hbb
        · intro p hp
          exact hpairs p (mem_sortPairs hp)
        · intro hd b hb
          exact Option.noConfusion hb
      intro hd l hl
      rw [← h] at hl
      dsimp only at hl
      rcases hbm2 : bm2 hd with _ | b
      · rw [hbm2] at hl
        exact absurd hl (by simp)
      · rw [hbm2] at hl
        have hlb : mkLoop g hd b = l := Option.some.inj hl
        have hbody : l.body = b := by rw [← hlb]; rfl
        exact hbody ▸ hbodies hd b hbm2

theorem add_edge_internal_succs (g : CFGraph) (a b : ℕ) (d : Option ℕ) (m : ℕ) :
    (g.add_edge_internal a b d).succs m =
      if m = a then insert b (g.succs a) else g.succs m := by
  dsimp only [CFGraph.add_edge_internal]
  by_cases hm : m = a
  · subst hm
    rw [Function.update_same, if_pos rfl]
  · rw [Function.update_noteq hm, if_neg hm]

theorem add_edge_internal_preds (g : CFGraph) (a b : ℕ) (d : Option ℕ) (m : ℕ) :
    (g.add_edge_internal a b d).preds m =
      if m = b then insert a (g.preds b) else g.preds m := by
  dsimp only [CFGraph.add_edge_internal]
  by_cases hm : m = b
  · subst hm
    rw [Function.update_same, if_pos rfl]
  · rw [Function.update_noteq hm, if_neg hm]

theorem add_edge_internal_wfadj (g : CFGraph) (a b : ℕ) (d : Option ℕ) (hwf : WFadj g) :
    WFadj (g.add_edge_internal a b d) := by
  obtain ⟨wf1, wf2⟩ := hwf
  constructor
  · intro x y
    rw [add_edge_internal_succs, add_edge_internal_preds]
    by_cases hx : x = a <;> by_cases hy : y = b <;>
      simp [hx, hy, wf1, Finset.mem_insert]
  · intro x y
    rw [add_edge_internal_succs]
    show _ ↔ (if x = a ∧ y = b then some d else g.edge_data x y).isSome = true
    by_cases hx : x = a <;> by_cases hy : y = b <;>
      simp [hx, hy, wf2, Finset.mem_insert]

theorem erase_insert_self_eq (s : Finset ℕ) (x : ℕ) : (insert x s).erase x = s.erase x := by
  ext y
  simp only [Finset.mem_erase, Finset.mem_insert]
  tauto

theorem foldl_add_edge_spec (dummy : ℕ) :
    ∀ (bs : List ℕ) (g : CFGraph), (∀ x ∈ bs, x ≠ dummy) →
      (∀ m, ((bs.foldl (fun a b => a.add_edge_internal b dummy none) g).succs m).erase dummy
          = (g.succs m).erase dummy) ∧
      (∀ m, m ≠ dummy →
        (bs.foldl (fun a b => a.add_edge_internal b dummy none) g).preds m = g.preds m) ∧
      (∀ a b, b ≠ dummy →
        (bs.foldl (fun a b => a.add_edge_internal b dummy none) g).edge_data a b
          = g.edge_data a b) ∧
      (bs.foldl (fun a b => a.add_edge_internal b dummy none) g).succs dummy
        = g.succs dummy ∧
      (bs.foldl (fun a b => a.add_edge_internal b dummy none) g).dead_nodes = g.dead_nodes ∧
      (bs.foldl (fun a b => a.add_edge_internal b dummy none) g).entry_point
        = g.entry_point := by
  intro bs
  induction bs with
  | nil =>
    intro g h
    exact ⟨fun m => rfl, fun m _ => rfl, fun a b _ => rfl, rfl, rfl, rfl⟩
  | cons x xs ih =>
    intro g h
    have hx : x ≠ dummy := h x (List.mem_cons_self _ _)
    obtain ⟨i1, i2, i3, i4, i5, i6⟩ :=
      ih (g.add_edge_internal x dummy none) (fun y hy => h y (List.mem_cons_of_mem _ hy))
    rw [List.foldl_cons]
    refine ⟨?_, ?_, ?_, ?_, ?_, ?_⟩
    · intro m
      rw [i1 m, add_edge_internal_succs]
      by_cases hm : m = x
      · rw [if_pos hm, hm, erase_insert_self_eq]
      · rw [if_neg hm]
    · intro m hm
      rw [i2 m hm, add_edge_internal_preds, if_neg hm]
    · intro a b hb
      rw [i3 a b hb]
      dsimp only [CFGraph.add_edge_internal]
      rw [if_neg (fun hc => hb hc.2)]
    · rw [i4, add_edge_internal_succs, if_neg (fun hc => hx hc.symm)]
    · rw [i5]; rfl
    · rw [i6]; rfl

theorem foldl_add_edge_wfadj (dummy : ℕ) :
    ∀ (bs : List ℕ) (g : CFGraph), WFadj g →
      WFadj (bs.foldl (fun a b => a.add_edge_internal b dummy none) g) := by
  intro bs
  induction bs with
  | nil => intro g h; exact h
  | cons x xs ih =>
    intro g h
    rw [List.foldl_cons]
    exact ih _ (add_edge_internal_wfadj g x dummy none h)

theorem add_dummy_edges_spec (g : CFGraph) (dummy : ℕ) (lm : LoopsMap)
    (hB : ∀ l ∈ lm.headersList.filterMap lm.find, dummy ∉ l.body) :
    (∀ m, ((add_dummy_edges g dummy lm).succs m).erase dummy = (g.succs m).erase dummy) ∧
    (∀ m, m ≠ dummy → (add_dummy_edges g dummy lm).preds m = g.preds m) ∧
    (∀ a b, b ≠ dummy → (add_dummy_edges g dummy lm).edge_data a b = g.edge_data a b) ∧
    (add_dummy_edges g dummy lm).succs dummy = g.succs dummy ∧
    (add_dummy_edges g dummy lm).dead_nodes = g.dead_nodes ∧
    (add_dummy_edges g dummy lm).entry_point = g.entry_point := by
  unfold add_dummy_edges
  revert hB
  generalize lm.headersList.filterMap lm.find = ls
  intro hB
  induction ls generalizing g with
  | nil => exact ⟨fun m => rfl, fun m _ => rfl, fun a b _ => rfl, rfl, rfl, rfl⟩
  | cons l ls ih =>
    rw [List.foldl_cons]
    have hBl : ∀ l2 ∈ ls, dummy ∉ l2.body := fun l2 h2 => hB l2 (List.mem_cons_of_mem _ h2)
    by_cases hex : l.exits = ∅
    · simp only [if_pos hex]
      obtain ⟨a1, a2, a3, a4, a5, a6⟩ := foldl_add_edge_spec dummy (l.body.asList) g
        (fun x hx hc => hB l (List.mem_cons_self _ _) (hc ▸ Finset.mem_asList.1 hx))
      obtain ⟨b1, b2, b3, b4, b5, b6⟩ := ih _ hBl
      exact ⟨fun m => (b1 m).trans (a1 m), fun m hm => (b2 m hm).trans (a2 m hm),
        fun a b hb => (b3 a b hb).trans (a3 a b hb), b4.trans a4, b5.trans a5, b6.trans a6⟩
    · simp only [if_neg hex]
      exact ih g hBl

theorem add_dummy_edges_wfadj (g : CFGraph) (dummy : ℕ) (lm : LoopsMap) (hwf : WFadj g) :
    WFadj (add_dummy_edges g dummy lm) := by
  unfold add_dummy_edges
  generalize lm.headersList.filterMap lm.find = ls
  induction ls generalizing g with
  | nil => exact hwf
  | cons l ls ih =>
    rw [List.foldl_cons]
    by_cases hex : l.exits = ∅
    · simp only [if_pos hex]
      exact ih _ (foldl_add_edge_wfadj dummy _ g hwf)
    · simp only [if_neg hex]
      exact ih g hwf

/-- Claim C3: when `post_dominators()` returns normally, the synthetic
sink is not a key or member of any returned post-dominator set, is not in
the exit-point set, is not a live node, and every edge added to or from
it has been removed: the graph's nodes, adjacency tables, payload table
and exit points are unchanged by the call. -/
theorem claim_C3 (g : CFGraph) (dummy fuel : ℕ) (r : PostDomsResult)
    (hwfadj : WFadj g) (hfresh : DummyFresh g dummy)
    (h : find_post_dominators g dummy fuel = .ok r) :
    dummy ∉ r.pdoms.keys ∧
    (∀ k, dummy ∉ r.pdoms.fn k) ∧
    dummy ∉ r.exits ∧
    r.exits = g.find_exit_points ∧
    dummy ∉ r.graph.nodes ∧
    r.graph.nodes = g.nodes ∧
    r.graph.dead_nodes = g.dead_nodes ∧
    r.graph.entry_point = g.entry_point ∧
    (∀ m, r.graph.succs m = g.succs m) ∧
    (∀ m, r.graph.preds m = g.preds m) ∧
    (∀ a b, r.graph.edge_data a b = g.edge_data a b) := by
  obtain ⟨hf1, hf2, hf3, hf4, hf5, hf6, hf7, hf8⟩ := hfresh
  unfold find_post_dominators at h
  rcases hlm : find_loops g fuel with e2 | lm
  · rw [hlm] at h
    simp [bind, Except.bind] at h
  · rw [hlm] at h
    simp only [bind, Except.bind] at h
    rcases hdi : find_dominators_internal (add_dummy_edges g dummy lm).nodes
        (insert dummy g.find_exit_points) (add_dummy_edges g dummy lm).succs
        (add_dummy_edges g dummy lm).preds fuel with e3 | pd
    · rw [hdi] at h
      simp at h
    · rw [hdi] at h
      simp only [Except.ok.injEq] at h
      subst h
      have hbodies : ∀ hd l, lm.find hd = some l → dummy ∉ l.body := by
        intro hd l hl hmem
        refine find_loops_bodies g (fun x => x ≠ dummy) ?_ ?_ ?_ fuel lm hlm hd l hl
          dummy hmem rfl
        · intro a b hb hc
          exact hf2 a (hc ▸ hb)
        · intro a b ha hc
          exact hf3 b (hc ▸ ha)
        · intro e hee hc
          exact hf8 (hc ▸ hee)
      have hB : ∀ l ∈ lm.headersList.filterMap lm.find, dummy ∉ l.body := by
        intro l hl
        rcases List.mem_filterMap.1 hl with ⟨hd, _, hfind⟩
        exact hbodies hd l hfind
      obtain ⟨a1, a2, a3, a4, a5, a6⟩ := add_dummy_edges_spec g dummy lm hB
      have hg2wf : WFadj (add_dummy_edges g dummy lm) := add_dummy_edges_wfadj g dummy lm hwfadj
      have hepd : dummy ∉ g.find_exit_points := by
        intro hc
        exact hf1 (Finset.mem_filter.1 hc).1
      refine ⟨Finset.not_mem_erase _ _, fun k => Finset.not_mem_erase _ _, ?_, ?_, ?_,
        ?_, ?_, ?_, ?_, ?_, ?_⟩
      · exact Finset.not_mem_erase _ _
      · show (insert dummy g.find_exit_points).erase dummy = g.find_exit_points
        exact Finset.erase_insert hepd
      · show dummy ∉ ((add_dummy_edges g dummy lm).remove_node_edges dummy).nodes
        show dummy ∉ (add_dummy_edges g dummy lm).nodes
        rw [add_dummy_edges_nodes]
        exact hf1
      · show ((add_dummy_edges g dummy lm).remove_node_edges dummy).nodes = g.nodes
        exact add_dummy_edges_nodes g dummy lm
      · exact a5
      · exact a6
      · intro m
        show ((add_dummy_edges g dummy lm).remove_node_edges dummy).succs m = g.succs m
        rw [remove_node_edges_succs _ dummy hg2wf m]
        by_cases hm : m = dummy
        · rw [if_pos hm, hm]
          exact hf4.symm
        · rw [if_neg hm, a1 m]
          exact Finset.erase_eq_of_not_mem (hf2 m)
      · intro m
        show ((add_dummy_edges g dummy lm).remove_node_edges dummy).preds m = g.preds m
        rw [remove_node_edges_preds _ dummy hg2wf m]
        by_cases hm : m = dummy
        · rw [if_pos hm, hm]
          exact hf5.symm
        · rw [if_neg hm, a2 m hm]
          exact Finset.erase_eq_of_not_mem (hf3 m)
      · intro a b
        show ((add_dummy_edges g dummy lm).remove_node_edges dummy).edge_data a b
          = g.edge_data a b
        rw [remove_node_edges_edge_data _ dummy hg2wf a b]
        by_cases hab : a = dummy ∨ b = dummy
        · rw [if_pos hab]
          rcases hab with hab | hab
          · rw [hab]
            exact (hf7 b).symm
          · rw [hab]
            exact (hf6 a).symm
        · rw [if_neg hab]
          exact a3 a b (fun hc => hab (Or.inr hc))

theorem claim_C3_witness :
    WFadj selfLoopG ∧ DummyFresh selfLoopG 1 ∧
    find_post_dominators selfLoopG 1 100 =
      .ok (exGetD (find_post_dominators selfLoopG 1 100) ⟨⟨∅, fun _ => ∅⟩, CFGraph.init, ∅⟩) ∧
    1 ∉ (exGetD (find_post_dominators selfLoopG 1 100)
      ⟨⟨∅, fun _ => ∅⟩, CFGraph.init, ∅⟩).pdoms.keys := by
  have hwf : WFadj selfLoopG := by
    constructor
    · intro a b
      by_cases ha : a = 0 <;> by_cases hb : b = 0 <;> simp [selfLoopG, ha, hb]
    · intro a b
      by_cases ha : a = 0 <;> by_cases hb : b = 0 <;> simp [selfLoopG, ha, hb]
  have hfresh : DummyFresh selfLoopG 1 := by
    refine ⟨by decide, ?_, ?_, by decide, by decide, ?_, ?_, by decide⟩
    · intro m
      by_cases hm : m = 0 <;> simp [selfLoopG, hm]
    · intro m
      by_cases hm : m = 0 <;> simp [selfLoopG, hm]
    · intro a
      by_cases ha : a = 0 <;> simp [selfLoopG, ha]
    · intro a
      simp [selfLoopG]
  exact ⟨hwf, hfresh, rfl,
    (claim_C3 selfLoopG 1 100 _ hwf hfresh rfl).1⟩

theorem buildBodies_keys (g : CFGraph) (fuel : ℕ) :
    ∀ (L : List (ℕ × ℕ)) (hs : List ℕ) (bm : ℕ → Option (Finset ℕ))
      (hs2 : List ℕ) (bm2 : ℕ → Option (Finset ℕ)),
      (∀ hd, (bm hd).isSome ↔ hd ∈ hs) →
      buildBodies g fuel L hs bm = .ok (hs2, bm2) →
      (∀ hd, (bm2 hd).isSome ↔ hd ∈ hs2) := by
  intro L
  induction L with
  | nil =>
    intro hs bm hs2 bm2 hinv h
    simp only [buildBodies, Except.ok.injEq, Prod.mk.injEq] at h
    obtain ⟨h1, h2⟩ := h
    exact h1 ▸ h2 ▸ hinv
  | cons p rest ih =>
    intro hs bm hs2 bm2 hinv h
    match p with
    | (src, dest) =>
      simp only [buildBodies] at h
      split at h
      next e2 hbody => exact absurd h (by simp)
      next body hbody =>
        split at h
        next old hold =>
          refine ih _ _ _ _ ?_ h
          intro hd
          by_cases hhd : hd = dest
          · subst hhd
            rw [Function.update_same]
            simp only [Option.isSome_some, true_iff]
            exact (hinv hd).1 (by rw [hold]; rfl)
          · rw [Function.update_noteq hhd]
            exact hinv hd
        next hnone =>
          refine ih _ _ _ _ ?_ h
          intro hd
          by_cases hhd : hd = dest
          · subst hhd
            rw [Function.update_same]
            simp only [Option.isSome_some, true_iff]
            exact List.mem_append.2 (Or.inr (List.mem_cons_self _ _))
          · rw [Function.update_noteq hhd]
            rw [hinv hd]
            constructor
            · intro h2
              exact List.mem_append.2 (Or.inl h2)
            · intro h2
              rcases List.mem_append.1 h2 with h3 | h3
              · exact h3
              · exact absurd (List.mem_singleton.1 h3) hhd

theorem find_loops_inv (g : CFGraph) (fuel : ℕ) (lm : LoopsMap)
    (h : find_loops g fuel = .ok lm) :
    (∀ hd l, lm.find hd = some l → l.header = hd) ∧
    (∀ hd, (lm.find hd).isSome ↔ hd ∈ lm.headersList) := by
  unfold find_loops at h
  rcases hbe : find_back_edges g fuel with e2 | be
  · rw [hbe] at h
    simp [bind, Except.bind] at h
  · rw [hbe] at h
    simp only [bind, Except.bind] at h
    rcases hbb : buildBodies g fuel (sortPairs be) [] (fun _ => none) with e3 | pr
    · rw [hbb] at h
      simp at h
    · rw [hbb] at h
      simp only [Except.ok.injEq] at h
      obtain ⟨hs2, bm2⟩ := pr
      have hkeys : ∀ hd, (bm2 hd).isSome ↔ hd ∈ hs2 := by
        refine buildBodies_keys g fuel _ _ _ _ _ ?_ hbb
        intro hd
        simp
      constructor
      · intro hd l hl
        rw [← h] at hl
        dsimp only at hl
        rcases hbm : bm2 hd with _ | b
        · rw [hbm] at hl
          exact absurd hl (by simp)
        · rw [hbm] at hl
          have h2 := Option.some.inj hl
          rw [← h2]
          rfl
      · intro hd
        rw [← h]
        dsimp only
        rw [← hkeys hd]
        rcases hbm : bm2 hd with _ | b <;> simp

theorem mapM_header_self (f : ℕ → Option Loop) :
    ∀ (L : List Loop), (∀ l ∈ L, f l.header = some l) →
      (L.map (fun l => l.header)).mapM f = some L := by
  intro L
  induction L with
  | nil => intro h; rfl
  | cons l ls ih =>
    intro h
    rw [List.map_cons, List.mapM_cons, h l (List.mem_cons_self _ _),
      ih (fun x hx => h x (List.mem_cons_of_mem _ hx))]
    rfl

/-- Claim C6 (amended): for every processed graph, the internal
node-to-loop-headers table lists, for each node n, the headers of exactly
the loops containing n in ascending body-size order — hence INNER loops
are listed before outer ones — and `in_loops(n)` returns the loops of the
stored headers in the stored order (it does not reverse), which is
therefore already innermost-to-outermost. -/
theorem claim_C6 (g : CFGraph) (fuel : ℕ) (lm : LoopsMap) (n : ℕ)
    (h : find_loops g fuel = .ok lm) :
    ∃ L : List Loop,
      in_loops g lm n = some L ∧
      find_in_loops g lm n = L.map (fun l => l.header) ∧
      List.Sorted loopSizeLe L ∧
      (∀ l, l ∈ L ↔ lm.find l.header = some l ∧ n ∈ l.body) := by
  obtain ⟨hheader, hkeys⟩ := find_loops_inv g fuel lm h
  set sorted := (lm.headersList.filterMap lm.find).insertionSort loopSizeLe with hsorted
  refine ⟨sorted.filter (fun l => decide (n ∈ l.body)), ?_, ?_, ?_, ?_⟩
  · show (find_in_loops g lm n).mapM lm.find = _
    have hff : ∀ l ∈ sorted.filter (fun l => decide (n ∈ l.body)), lm.find l.header = some l := by
      intro l hl
      have hl2 : l ∈ sorted := List.mem_of_mem_filter hl
      have hl3 : l ∈ lm.headersList.filterMap lm.find :=
        ((List.perm_insertionSort loopSizeLe _).mem_iff).1 hl2
      rcases List.mem_filterMap.1 hl3 with ⟨hd, _, hfind⟩
      rw [hheader hd l hfind]
      exact hfind
    have : find_in_loops g lm n =
        (sorted.filter (fun l => decide (n ∈ l.body))).map (fun l => l.header) := rfl
    rw [this]
    exact mapM_header_self lm.find _ hff
  · rfl
  · exact (List.sorted_insertionSort loopSizeLe _).filter _
  · intro l
    constructor
    · intro hl
      have hl2 : l ∈ sorted := List.mem_of_mem_filter hl
      have hl3 : l ∈ lm.headersList.filterMap lm.find :=
        ((List.perm_insertionSort loopSizeLe _).mem_iff).1 hl2
      rcases List.mem_filterMap.1 hl3 with ⟨hd, _, hfind⟩
      have hb : n ∈ l.body := by
        have := List.of_mem_filter hl
        exact of_decide_eq_true this
      rw [hheader hd l hfind]
      exact ⟨hfind, hb⟩
    · intro ⟨hfind, hb⟩
      refine List.mem_filter.2 ⟨?_, decide_eq_true hb⟩
      refine ((List.perm_insertionSort loopSizeLe _).mem_iff).2 ?_
      refine List.mem_filterMap.2 ⟨l.header, ?_, hfind⟩
      exact (hkeys l.header).1 (by rw [hfind]; rfl)

/-- Claim C6 counterexample: in the nested-loops graph 0→1→2 with 2→2
(inner loop, header 2, body of size 1) and 2→1 (outer loop, header 1,
body of size 2), the stored header list for node 2 is [2, 1] — the inner
loop comes BEFORE the outer one, refuting "outer loops are listed before
inner ones" — and `in_loops(2)` returns the stored order itself, not its
reverse. -/
theorem claim_C6_counterexample :
    find_in_loops nestedG nestedLM 2 = [2, 1] ∧
    (nestedLM.find 2).isSome = true ∧
    (nestedLM.find 1).isSome = true ∧
    ((nestedLM.find 2).getD defaultLoop).body.card = 1 ∧
    ((nestedLM.find 1).getD defaultLoop).body.card = 2 ∧
    ((in_loops nestedG nestedLM 2).getD []).map (fun l => l.header) = [2, 1] ∧
    ¬ in_loops nestedG nestedLM 2 =
        ((find_in_loops nestedG nestedLM 2).reverse.mapM nestedLM.find) := by
  decide

theorem claim_C6_witness :
    find_loops nestedG 200 = .ok nestedLM ∧
    (∃ L : List Loop,
      in_loops nestedG nestedLM 2 = some L ∧
      find_in_loops nestedG nestedLM 2 = L.map (fun l => l.header) ∧
      List.Sorted loopSizeLe L ∧
      (∀ l, l ∈ L ↔ nestedLM.find l.header = some l ∧ 2 ∈ l.body)) :=
  ⟨rfl, claim_C6 nestedG 200 nestedLM 2 rfl⟩

theorem excl_mono_pop (s : BEState) (tos : ℕ) (rest : List ℕ) (hs : s.stack = tos :: rest)
    (p : ℕ × ℕ) (h : Excl s p) :
    Excl { s with stack := rest, checked := insert tos s.checked } p := by
  obtain ⟨h1, h2, h3⟩ := h
  refine ⟨?_, h2, h3⟩
  rcases h1 with h1 | h1
  · rw [hs] at h1
    rcases List.mem_cons.1 h1 with h4 | h4
    · exact Or.inr (Finset.mem_insert.2 (Or.inl h4))
    · exact Or.inl h4
  · exact Or.inr (Finset.mem_insert_of_mem h1)

theorem excl_mono_update (s : BEState) (tos cur : ℕ) (rem : List ℕ)
    (hget : s.sstate tos = cur :: rem) (p : ℕ × ℕ) (h : Excl s p) :
    Excl { s with sstate := Function.update s.sstate tos rem } p := by
  obtain ⟨h1, h2, h3⟩ := h
  refine ⟨h1, ?_, h3⟩
  show p.2 ∉ Function.update s.sstate tos rem p.1
  by_cases hp : p.1 = tos
  · rw [hp, Function.update_same]
    intro hc
    exact h2 (by rw [hp, hget]; exact List.mem_cons_of_mem _ hc)
  · rw [Function.update_noteq hp]
    exact h2

theorem excl_mono_back (s : BEState) (tos cur : ℕ) (rem : List ℕ)
    (hget : s.sstate tos = cur :: rem) (p : ℕ × ℕ) (h : Excl s p) :
    Excl { s with sstate := Function.update s.sstate tos rem,
                  be := insert (tos, cur) s.be } p := by
  obtain ⟨h1, h2, h3⟩ := h
  refine ⟨h1, ?_, ?_⟩
  · show p.2 ∉ Function.update s.sstate tos rem p.1
    by_cases hp : p.1 = tos
    · rw [hp, Function.update_same]
      intro hc
      exact h2 (by rw [hp, hget]; exact List.mem_cons_of_mem _ hc)
    · rw [Function.update_noteq hp]
      exact h2
  · intro hc
    rcases Finset.mem_insert.1 hc with h4 | h4
    · apply h2
      rw [h4]
      show cur ∈ s.sstate tos
      rw [hget]
      exact List.mem_cons_self _ _
    · exact h3 h4

theorem excl_mono_push (g : CFGraph) (s : BEState) (tos cur : ℕ) (rem : List ℕ)
    (hget : s.sstate tos = cur :: rem) (hcs : cur ∉ s.stack) (hcc : cur ∉ s.checked)
    (p : ℕ × ℕ) (h : Excl s p) :
    Excl (pushState g { s with sstate := Function.update s.sstate tos rem } cur) p := by
  obtain ⟨h1, h2, h3⟩ := h
  have hp1 : p.1 ≠ cur := by
    intro hc
    rcases h1 with h4 | h4
    · exact hcs (hc ▸ h4)
    · exact hcc (hc ▸ h4)
  dsimp only [pushState]
  refine ⟨?_, ?_, h3⟩
  · rcases h1 with h4 | h4
    · exact Or.inl (List.mem_cons_of_mem _ h4)
    · exact Or.inr h4
  · show p.2 ∉ Function.update (Function.update s.sstate tos rem) cur
      (((g.succs cur).asList).reverse) p.1
    rw [Function.update_noteq hp1]
    by_cases hp : p.1 = tos
    · rw [hp, Function.update_same]
      intro hc
      exact h2 (by rw [hp, hget]; exact List.mem_cons_of_mem _ hc)
    · rw [Function.update_noteq hp]
      exact h2

theorem exclReach_mono {g : CFGraph} {s s2 : BEState} {e v : ℕ}
    (hmono : ∀ p, Excl s p → Excl s2 p) (h : ExclReach g s e v) : ExclReach g s2 e v :=
  Relation.ReflTransGen.mono (fun a b hab => ⟨hab.1, hmono (a, b) hab.2⟩) h

theorem beLoop_good (g : CFGraph) (e : ℕ) :
    ∀ (fuel : ℕ) (s : BEState) (BE : Finset (ℕ × ℕ)),
      BEGood g e s →
      beLoop g s fuel = .ok BE →
      ∀ p ∈ BE, NBReaches g BE e p.2 := by
  intro fuel
  induction fuel with
  | zero =>
    intro s BE hgood h
    simp [beLoop] at h
  | succ n ih =>
    intro s BE hgood h
    obtain ⟨g1, g2, g3, g4, g5, g6⟩ := hgood
    simp only [beLoop] at h
    split at h
    next hnil =>
      simp only [Except.ok.injEq] at h
      subst h
      intro p hp
      refine Relation.ReflTransGen.mono ?_ (g2 p hp)
      intro a b hab
      exact ⟨hab.1, hab.2.2.2⟩
    next tos rest hcons =>
      have htos : tos ∈ s.stack := by
        rw [hcons]
        exact List.mem_cons_self _ _
      split at h
      next hemp =>
        refine ih _ _ ?_ h
        have hmono := fun p => excl_mono_pop s tos rest hcons p
        refine ⟨?_, ?_, g3, g4, g5, ?_⟩
        · intro v hv
          refine exclReach_mono hmono (g1 v ?_)
          rw [hcons]
          exact List.mem_cons_of_mem _ hv
        · intro p hp
          exact exclReach_mono hmono (g2 p hp)
        · intro p hp
          rcases g6 p hp with h4 | h4
          · rw [hcons] at h4
            rcases List.mem_cons.1 h4 with h5 | h5
            · exact Or.inr (Finset.mem_insert.2 (Or.inl h5))
            · exact Or.inl h5
          · exact Or.inr (Finset.mem_insert_of_mem h4)
      next cur rem hget =>
        have hcur_succ : cur ∈ g.succs tos :=
          g3 tos cur (by rw [hget]; exact List.mem_cons_self _ _)
        have hcurrem : cur ∉ rem := by
          have h4 := g4 tos
          rw [hget] at h4
          exact (List.nodup_cons.1 h4).1
        have g3u : ∀ u w, w ∈ Function.update s.sstate tos rem u → w ∈ g.succs u := by
          intro u w hw
          by_cases hu : u = tos
          · rw [hu, Function.update_same] at hw
            exact g3 u w (by rw [hu, hget]; exact List.mem_cons_of_mem _ hw)
          · rw [Function.update_noteq hu] at hw
            exact g3 u w hw
        have g4u : ∀ u, (Function.update s.sstate tos rem u).Nodup := by
          intro u
          by_cases hu : u = tos
          · rw [hu, Function.update_same]
            have h4 := g4 tos
            rw [hget] at h4
            exact (List.nodup_cons.1 h4).2
          · rw [Function.update_noteq hu]
            exact g4 u
        have hmem_update : ∀ u w, w ∈ Function.update s.sstate tos rem u → w ∈ s.sstate u := by
          intro u w hw
          by_cases hu : u = tos
          · rw [hu, Function.update_same] at hw
            rw [hu, hget]
            exact List.mem_cons_of_mem _ hw
          · rw [Function.update_noteq hu] at hw
            exact hw
        split at h
        next hin =>
          have hmono := fun p => excl_mono_back s tos cur rem hget p
          refine ih _ _ ?_ h
          refine ⟨?_, ?_, g3u, g4u, ?_, ?_⟩
          · intro v hv
            exact exclReach_mono hmono (g1 v hv)
          · intro p hp
            rcases Finset.mem_insert.1 hp with h4 | h4
            · rw [h4]
              exact exclReach_mono hmono (g1 cur hin)
            · exact exclReach_mono hmono (g2 p h4)
          · intro u w hw hc
            rcases Finset.mem_insert.1 hc with h4 | h4
            · have hu : u = tos := congrArg Prod.fst h4
              have hwc : w = cur := congrArg Prod.snd h4
              have hw2 : w ∈ Function.update s.sstate tos rem u := hw
              rw [hu, Function.update_same] at hw2
              exact hcurrem (hwc ▸ hw2)
            · exact g5 u w (hmem_update u w hw) h4
          · intro p hp
            rcases Finset.mem_insert.1 hp with h4 | h4
            · left
              rw [h4]
              exact htos
            · exact g6 p h4
        next hnotin =>
          split at h
          next hchk =>
            have hmono := fun p => excl_mono_update s tos cur rem hget p
            refine ih _ _ ?_ h
            refine ⟨?_, ?_, g3u, g4u, ?_, g6⟩
            · intro v hv
              exact exclReach_mono hmono (g1 v hv)
            · intro p hp
              exact exclReach_mono hmono (g2 p hp)
            · intro u w hw
              exact g5 u w (hmem_update u w hw)
          next hchk =>
            have hmono := fun p => excl_mono_push g s tos cur rem hget hnotin hchk p
            have htc : tos ≠ cur := fun hc => hnotin (hc ▸ htos)
            have hexcl_tc :
                Excl (pushState g { s with sstate := Function.update s.sstate tos rem } cur)
                  (tos, cur) := by
              dsimp only [pushState]
              refine ⟨Or.inl (List.mem_cons_of_mem _ htos), ?_, ?_⟩
              · show cur ∉ Function.update (Function.update s.sstate tos rem) cur
                  (((g.succs cur).asList).reverse) tos
                rw [Function.update_noteq htc, Function.update_same]
                exact hcurrem
              · exact g5 tos cur (by rw [hget]; exact List.mem_cons_self _ _)
            refine ih _ _ ?_ h
            refine ⟨?_, ?_, ?_, ?_, ?_, ?_⟩
            · intro v hv
              have hv2 : v = cur ∨ v ∈ s.stack := by
                simpa [pushState] using hv
              rcases hv2 with h4 | h4
              · subst h4
                exact (exclReach_mono hmono (g1 tos htos)).tail ⟨hcur_succ, hexcl_tc⟩
              · exact exclReach_mono hmono (g1 v h4)
            · intro p hp
              exact exclReach_mono hmono (g2 p hp)
            · intro u w hw
              by_cases hu : u = cur
              · subst hu
                have hw2 : w ∈ ((g.succs u).asList).reverse := by
                  simpa [pushState, Function.update_same] using hw
                exact Finset.mem_asList.1 (List.mem_reverse.1 hw2)
              · have hw2 : w ∈ Function.update s.sstate tos rem u := by
                  simpa [pushState, Function.update_noteq hu] using hw
                exact g3u u w hw2
            · intro u
              by_cases hu : u = cur
              · subst hu
                show (Function.update (Function.update s.sstate tos rem) u
                  (((g.succs u).asList).reverse) u).Nodup
                rw [Function.update_same]
                exact List.nodup_reverse.2 (Finset.asList_nodup _)
              · show (Function.update (Function.update s.sstate tos rem) cur
                  (((g.succs cur).asList).reverse) u).Nodup
                rw [Function.update_noteq hu]
                exact g4u u
            · intro u w hw hc
              by_cases hu : u = cur
              · rcases g6 (u, w) hc with h4 | h4
                · exact hnotin (hu ▸ h4)
                · exact hchk (hu ▸ h4)
              · have hw2 : w ∈ Function.update s.sstate tos rem u := by
                  simpa [pushState, Function.update_noteq hu] using hw
                exact g5 u w (hmem_update u w hw2) hc
            · intro p hp
              rcases g6 p hp with h4 | h4
              · exact Or.inl (List.mem_cons_of_mem _ h4)
              · exact Or.inr h4

theorem find_back_edges_nbreach (g : CFGraph) (e fuel : ℕ) (BE : Finset (ℕ × ℕ))
    (he : g.entry_point = some e) (h : find_back_edges g fuel = .ok BE) :
    ∀ p ∈ BE, NBReaches g BE e p.2 := by
  unfold find_back_edges at h
  rw [he] at h
  refine beLoop_good g e fuel _ BE ?_ h
  refine ⟨?_, ?_, ?_, ?_, ?_, ?_⟩
  · intro v hv
    have hv2 : v = e ∨ v ∈ ([] : List ℕ) := by simpa [pushState] using hv
    rcases hv2 with h2 | h2
    · subst h2
      exact Relation.ReflTransGen.refl
    · exact absurd h2 (List.not_mem_nil v)
  · intro p hp
    exact absurd hp (Finset.not_mem_empty p)
  · intro u w hw
    by_cases hu : u = e
    · subst hu
      have hw2 : w ∈ ((g.succs u).asList).reverse := by
        simpa [pushState, Function.update_same] using hw
      exact Finset.mem_asList.1 (List.mem_reverse.1 hw2)
    · have hw2 : w ∈ ([] : List ℕ) := by
        simp only [pushState, Function.update_noteq hu] at hw
        exact hw
      exact absurd hw2 (List.not_mem_nil w)
  · intro u
    by_cases hu : u = e
    · subst hu
      show (Function.update (fun _ => ([] : List ℕ)) u (((g.succs u).asList).reverse) u).Nodup
      rw [Function.update_same]
      exact List.nodup_reverse.2 (Finset.asList_nodup _)
    · show (Function.update (fun _ => ([] : List ℕ)) e (((g.succs e).asList).reverse) u).Nodup
      rw [Function.update_noteq hu]
      exact List.nodup_nil
  · intro u w hw hc
    exact absurd hc (Finset.not_mem_empty _)
  · intro p hp
    exact absurd hp (Finset.not_mem_empty p)

theorem reaches_to_nbreaches (g : CFGraph) (BE : Finset (ℕ × ℕ)) (e : ℕ)
    (hBE : ∀ p ∈ BE, NBReaches g BE e p.2) :
    ∀ n, Reaches g e n → NBReaches g BE e n := by
  intro n h
  induction h with
  | refl => exact Relation.ReflTransGen.refl
  | tail hab hbc ih =>
    rename_i b c
    by_cases hmem : (b, c) ∈ BE
    · exact hBE (b, c) hmem
    · exact ih.tail ⟨hbc, hmem⟩

theorem topoVisit_spec (g : CFGraph) (be : Finset (ℕ × ℕ)) :
    ∀ (fuel : ℕ) (work : List ℕ) (seen : Finset ℕ) (acc : List ℕ)
      (seen2 : Finset ℕ) (acc2 : List ℕ),
      topoVisit g be fuel work seen acc = some (seen2, acc2) →
      seen ⊆ seen2 ∧
      (∀ w ∈ work, w ∈ seen2) ∧
      (∃ L, acc2 = L ++ acc ∧ L.Nodup ∧ (∀ x, x ∈ L ↔ x ∈ seen2 ∧ x ∉ seen)) ∧
      (∀ v ∈ seen2, v ∉ seen → ∀ d ∈ g.succs v, (v, d) ∉ be → d ∈ seen2) := by
  intro fuel
  induction fuel with
  | zero =>
    intro work seen acc seen2 acc2 h
    simp [topoVisit] at h
  | succ n ih =>
    intro work seen acc seen2 acc2 h
    match work with
    | [] =>
      simp only [topoVisit, Option.some.injEq, Prod.mk.injEq] at h
      obtain ⟨h1, h2⟩ := h
      subst h1
      subst h2
      refine ⟨fun x hx => hx, fun w hw => absurd hw (List.not_mem_nil w),
        ⟨[], by simp, List.nodup_nil, by intro x; simp⟩, ?_⟩
      intro v hv hnv d hd hnd
      exact absurd hv hnv
    | m :: ms =>
      simp only [topoVisit] at h
      split at h
      next hmem =>
        obtain ⟨s1, s2, ⟨L, hL, hnd, hmemL⟩, s4⟩ := ih ms seen acc seen2 acc2 h
        refine ⟨s1, ?_, ⟨L, hL, hnd, hmemL⟩, s4⟩
        intro w hw
        rcases List.mem_cons.1 hw with h2 | h2
        · exact h2 ▸ s1 hmem
        · exact s2 w h2
      next hmem =>
        split at h
        next hinner => exact absurd h (by simp)
        next seenA accA hinner =>
          obtain ⟨i1, i2, ⟨L1, hL1, hnd1, hm1⟩, i4⟩ := ih _ _ _ _ _ hinner
          obtain ⟨j1, j2, ⟨L2, hL2, hnd2, hm2⟩, j4⟩ := ih _ _ _ _ _ h
          have hmseen2 : m ∈ seen2 := j1 (i1 (Finset.mem_insert_self m seen))
          refine ⟨?_, ?_, ?_, ?_⟩
          · exact fun x hx => j1 (i1 (Finset.mem_insert_of_mem hx))
          · intro w hw
            rcases List.mem_cons.1 hw with h2 | h2
            · exact h2 ▸ hmseen2
            · exact j2 w h2
          · refine ⟨L2 ++ m :: L1, ?_, ?_, ?_⟩
            · rw [hL2, hL1]
              simp
            · refine List.Nodup.append hnd2 ?_ ?_
              · refine List.nodup_cons.2 ⟨?_, hnd1⟩
                intro hc
                exact ((hm1 m).1 hc).2 (Finset.mem_insert_self m seen)
              · intro x hx2 hx1
                have hxA : x ∉ seenA := ((hm2 x).1 hx2).2
                rcases List.mem_cons.1 hx1 with h2 | h2
                · exact hxA (h2 ▸ i1 (Finset.mem_insert_self m seen))
                · exact hxA ((hm1 x).1 h2).1
            · intro x
              constructor
              · intro hx
                rcases List.mem_append.1 hx with h2 | h2
                · obtain ⟨hx2, hx3⟩ := (hm2 x).1 h2
                  exact ⟨hx2, fun hc => hx3 (i1 (Finset.mem_insert_of_mem hc))⟩
                · rcases List.mem_cons.1 h2 with h3 | h3
                  · subst h3
                    exact ⟨hmseen2, hmem⟩
                  · obtain ⟨hx2, hx3⟩ := (hm1 x).1 h3
                    exact ⟨j1 hx2, fun hc => hx3 (Finset.mem_insert_of_mem hc)⟩
              · intro hx
                obtain ⟨hx2, hx3⟩ := hx
                by_cases hxa : x ∈ seenA
                · by_cases hxm : x = m
                  · exact List.mem_append.2 (Or.inr (List.mem_cons.2 (Or.inl hxm)))
                  · refine List.mem_append.2 (Or.inr (List.mem_cons.2 (Or.inr ?_)))
                    refine (hm1 x).2 ⟨hxa, ?_⟩
                    intro hc
                    rcases Finset.mem_insert.1 hc with h3 | h3
                    · exact hxm h3
                    · exact hx3 h3
                · exact List.mem_append.2 (Or.inl ((hm2 x).2 ⟨hx2, hxa⟩))
          · intro v hv hnv d hd hnd
            by_cases hva : v ∈ seenA
            · by_cases hvm : v = m
              · subst hvm
                refine j1 (i2 d ?_)
                refine List.mem_filter.2 ⟨Finset.mem_asList.2 hd, ?_⟩
                exact decide_eq_true hnd
              · have hvni : v ∉ insert m seen := by
                  intro hc
                  rcases Finset.mem_insert.1 hc with h3 | h3
                  · exact hvm h3
                  · exact hnv h3
                exact j1 (i4 v hva hvni d hd hnd)
            · exact j4 v hv hva d hd hnd

theorem topoVisit_nodes (g : CFGraph) (be : Finset (ℕ × ℕ))
    (hcl : ∀ a b, b ∈ g.succs a → b ∈ g.nodes) :
    ∀ (fuel : ℕ) (work : List ℕ) (seen : Finset ℕ) (acc : List ℕ)
      (seen2 : Finset ℕ) (acc2 : List ℕ),
      topoVisit g be fuel work seen acc = some (seen2, acc2) →
      (∀ w ∈ work, w ∈ g.nodes) → (∀ x ∈ seen, x ∈ g.nodes) → ∀ x ∈ seen2, x ∈ g.nodes := by
  intro fuel
  induction fuel with
  | zero =>
    intro work seen acc seen2 acc2 h
    simp [topoVisit] at h
  | succ n ih =>
    intro work seen acc seen2 acc2 h hwork hseen
    match work with
    | [] =>
      simp only [topoVisit, Option.some.injEq, Prod.mk.injEq] at h
      exact h.1 ▸ hseen
    | m :: ms =>
      simp only [topoVisit] at h
      split at h
      next hmem =>
        exact ih ms seen acc seen2 acc2 h (fun w hw => hwork w (List.mem_cons_of_mem _ hw)) hseen
      next hmem =>
        split at h
        next hinner => exact absurd h (by simp)
        next seenA accA hinner =>
          have hm : m ∈ g.nodes := hwork m (List.mem_cons_self _ _)
          have hA : ∀ x ∈ seenA, x ∈ g.nodes := by
            refine ih _ _ _ _ _ hinner ?_ ?_
            · intro w hw
              exact hcl m w (Finset.mem_asList.1 (List.mem_of_mem_filter hw))
            · intro x hx
              rcases Finset.mem_insert.1 hx with h2 | h2
              · exact h2 ▸ hm
              · exact hseen x h2
          exact ih _ _ _ _ _ h (fun w hw => hwork w (List.mem_cons_of_mem _ hw)) hA

/-- Claim C10: on a processed graph (well-formed, every live node
reachable from the entry point), `topo_order()` contains every live node
exactly once — it is a duplicate-free enumeration of the live-node set —
because skipping back edges never disconnects a live node: every back
edge targets a node that was already reachable along non-back edges. -/
theorem claim_C10 (g : CFGraph) (fuel e : ℕ) (ord : List ℕ)
    (hcl : ∀ a b, b ∈ g.succs a → b ∈ g.nodes)
    (he : g.entry_point = some e) (hen : e ∈ g.nodes)
    (hreach : ∀ n ∈ g.nodes, Reaches g e n)
    (h : find_topo_order g fuel = .ok ord) :
    ord.Nodup ∧ ∀ n, n ∈ ord ↔ n ∈ g.nodes := by
  unfold find_topo_order at h
  rcases hbe : find_back_edges g fuel with e2 | BE
  · rw [hbe] at h
    simp [bind, Except.bind] at h
  · rw [hbe] at h
    simp only [bind, Except.bind, he] at h
    rcases htv : topoVisit g BE fuel [e] ∅ [] with _ | pr
    · rw [htv] at h
      simp at h
    · rw [htv] at h
      obtain ⟨seen2, acc2⟩ := pr
      simp only [Except.ok.injEq] at h
      subst h
      obtain ⟨hsub, hwork, ⟨L, hL, hnodup, hmem⟩, hclosure⟩ :=
        topoVisit_spec g BE fuel [e] ∅ [] seen2 acc2 htv
      rw [List.append_nil] at hL
      have hmem2 : ∀ x, x ∈ L ↔ x ∈ seen2 := by
        intro x
        rw [hmem x]
        simp
      have h1 : ∀ x ∈ seen2, x ∈ g.nodes := by
        refine topoVisit_nodes g BE hcl fuel [e] ∅ [] seen2 _ htv ?_ ?_
        · intro w hw
          rcases List.mem_cons.1 hw with h2 | h2
          · exact h2 ▸ hen
          · exact absurd h2 (List.not_mem_nil w)
        · intro x hx
          exact absurd hx (Finset.not_mem_empty x)
      have hnb : ∀ p ∈ BE, NBReaches g BE e p.2 := find_back_edges_nbreach g e fuel BE he hbe
      have h2 : ∀ n ∈ g.nodes, n ∈ seen2 := by
        intro n hn
        have hnb2 : NBReaches g BE e n := reaches_to_nbreaches g BE e hnb n (hreach n hn)
        clear hn
        induction hnb2 with
        | refl => exact hwork e (List.mem_cons_self _ _)
        | tail hab hbc ihn => exact hclosure _ ihn (Finset.not_mem_empty _) _ hbc.1 hbc.2
      rw [hL]
      refine ⟨hnodup, ?_⟩
      intro n
      rw [hmem2 n]
      exact ⟨h1 n, h2 n⟩

theorem claim_C10_witness :
    (∀ a b, b ∈ diamondG.succs a → b ∈ diamondG.nodes) ∧
    (∀ n ∈ diamondG.nodes, Reaches diamondG 0 n) ∧
    find_topo_order diamondG 100 = .ok (exGetD (find_topo_order diamondG 100) []) ∧
    (exGetD (find_topo_order diamondG 100) []).Nodup := by
  have hcl : ∀ a b, b ∈ diamondG.succs a → b ∈ diamondG.nodes := by
    intro a b
    by_cases h0 : a = 0 <;> by_cases h1 : a = 1 <;> by_cases h2 : a = 2 <;>
      simp [diamondG, h0, h1, h2] <;> omega
  have hreach : ∀ n ∈ diamondG.nodes, Reaches diamondG 0 n := by
    intro n hn
    have hn2 : n = 0 ∨ n = 1 ∨ n = 2 ∨ n = 3 := by
      simpa [diamondG] using hn
    have e01 : Reaches diamondG 0 1 :=
      Relation.ReflTransGen.tail Relation.ReflTransGen.refl (by decide)
    rcases hn2 with h | h | h | h <;> subst h
    · exact Relation.ReflTransGen.refl
    · exact e01
    · exact Relation.ReflTransGen.tail Relation.ReflTransGen.refl (by decide)
    · exact Relation.ReflTransGen.tail e01 (by decide)
  exact ⟨hcl, hreach, rfl,
    (claim_C10 diamondG 100 0 _ hcl rfl (by decide) hreach rfl).1⟩
